import Mathlib

set_option maxHeartbeats 1000000
set_option linter.unusedVariables false

/-!
Shallow embedding of the evaluation-order, traversal, node-map and node-group
machinery of `Source/ComputationNetworkLib/ComputationNetwork.h` (class
`ComputationNetwork` and its flow-control node classes).

Nodes are identified by elements of `Fin nn` (standing in for
`ComputationNodeBasePtr` identity).  The per-network state that the embedded
operations read or write (`m_evalOrders`, `m_nameToNodeMap`, the node-group
vectors) is passed explicitly.  Fallible operations return `Except Err`.
-/

/-- Fatal error taxonomy of the source: `LogicError`, `RuntimeError` and
`InvalidArgument` all throw; `nullDeref` stands for the undefined behaviour of
calling a member function through a null `ComputationNodeBasePtr` (which the
source does while building some error messages). -/
inductive Err where
  | logicError (msg : String)
  | runtimeError (msg : String)
  | invalidArgument (msg : String)
  | nullDeref
  deriving DecidableEq

/-- Decidable equality of `Except` results, used to evaluate the embedding at
concrete inputs. -/
instance {ε α : Type} [DecidableEq ε] [DecidableEq α] : DecidableEq (Except ε α) :=
  fun x y =>
    match x, y with
    | .ok a, .ok b =>
      if h : a = b then .isTrue (by rw [h]) else .isFalse (fun hc => h (Except.ok.inj hc))
    | .error a, .error b =>
      if h : a = b then .isTrue (by rw [h])
      else .isFalse (fun hc => h (Except.error.inj hc))
    | .ok _, .error _ => .isFalse (fun hc => Except.noConfusion hc)
    | .error _, .ok _ => .isFalse (fun hc => Except.noConfusion hc)

/-- A `SEQTraversalFlowControlNode`, reduced to the data the traversal claims
use: its unique loop id (`m_loopId`, the index in `m_allSEQNodes`) and the loop
member nodes (`m_nestedNodes`). -/
structure SEQLoop (nn : Nat) where
  loopId : Nat
  members : List (Fin nn)
  deriving DecidableEq

/-- The slice of `ComputationNetwork` and per-node state that the claims
depend on.  Field names mirror the source members they embed. -/
structure Net (nn : Nat) where
  /-- `ComputationNodeBase::GetInputs()` of each node. -/
  inputs : Fin nn → List (Fin nn)
  /-- `m_allRoots`. -/
  allRoots : List (Fin nn)
  /-- `ComputationNodeBase::IsPartOfLoop()` of each node. -/
  isPartOfLoop : Fin nn → Bool
  /-- `m_allSEQNodes`. -/
  seqLoops : List (SEQLoop nn)
  /-- `ComputationNodeBase::NodeName()` of each node. -/
  name : Fin nn → String
  /-- `ComputationNodeBase::OperationName()` of each node. -/
  opName : Fin nn → String

variable {nn : Nat}

/-- Transitive-predecessor relation: `Reaches net r x` holds when `x` can be
reached from `r` by following input edges zero or more times (so `r` itself is
reached). -/
def Reaches (net : Net nn) : Fin nn → Fin nn → Prop :=
  Relation.ReflTransGen (fun a b => b ∈ net.inputs a)

/-- Cost of first-visiting a node in the depth-first traversal: one worklist
entry per input plus the exit marker.  Used to size the explicit fuel. -/
def stepCost (net : Net nn) (u : Fin nn) : Nat := (net.inputs u).length + 1

/-- Fuel bound for `dfsAux`: pending worklist entries plus the visit cost of
every not-yet-visited node.  It decreases by exactly one at each step. -/
def phi (net : Net nn) (vis : Finset (Fin nn)) (wl : List (Fin nn × Bool)) : Nat :=
  wl.length + (Finset.univ \ vis).sum (stepCost net)

/-- Modelled from the spec: worker of `::CNTK::PostOrderTraversal`
(`ComputationGraphAlgorithms.h`, which is not under `src/`) — an iterative
post-order depth-first traversal.  A worklist entry `(u, false)` means
"enter u"; `(u, true)` means "emit u".  Entering a fresh node marks it
visited, schedules its inputs and then its own emission, so a node is emitted
after its not-yet-visited transitive inputs, and each node exactly once. -/
def dfsAux (net : Net nn) :
    Nat → List (Fin nn × Bool) → Finset (Fin nn) → List (Fin nn) →
    Finset (Fin nn) × List (Fin nn)
  | 0, _, vis, out => (vis, out)
  | _ + 1, [], vis, out => (vis, out)
  | fuel + 1, (u, true) :: rest, vis, out => dfsAux net fuel rest vis (out ++ [u])
  | fuel + 1, (u, false) :: rest, vis, out =>
    if u ∈ vis then dfsAux net fuel rest vis out
    else dfsAux net fuel (((net.inputs u).map (fun c => (c, false))) ++ (u, true) :: rest)
      (insert u vis) out

/-- Modelled from the spec: `::CNTK::PostOrderTraversal(graph, roots)`
(`ComputationGraphAlgorithms.h`, not under `src/`) — the post-order
depth-first traversal over the given roots and their transitive predecessors,
visiting each node exactly once (spec section 4.1). -/
def PostOrderTraversal (net : Net nn) (roots : List (Fin nn)) : List (Fin nn) :=
  (dfsAux net (phi net ∅ (roots.map (fun r => (r, false))))
    (roots.map (fun r => (r, false))) ∅ []).2

/-- The nodes with a pending exit marker on the worklist (proof bookkeeping
for `dfsAux`). -/
def exitsOf (wl : List (Fin nn × Bool)) : List (Fin nn) :=
  (wl.filter (fun e => e.2)).map (fun e => e.1)

/-- `m_evalOrders` — the eval-order cache, a map keyed by root node, where the
key `none` is the null root (the global order).  Modelled as an association
list with first-match lookup. -/
abbrev EvalCache (nn : Nat) := List (Option (Fin nn) × List (Fin nn))

/-- Lookup in `m_evalOrders` (`m_evalOrders.find(rootNode)`). -/
def lookupCache : EvalCache nn → Option (Fin nn) → Option (List (Fin nn))
  | [], _ => none
  | (k, v) :: rest, k' => if k = k' then some v else lookupCache rest k'

/-- Map assignment `m_evalOrders[rootNode] = evalOrder`: replaces the entry for
the key if present, otherwise adds one. -/
def insertCache : EvalCache nn → Option (Fin nn) → List (Fin nn) → EvalCache nn
  | [], k, v => [(k, v)]
  | (k0, v0) :: rest, k, v =>
    if k0 = k then (k, v) :: rest else (k0, v0) :: insertCache rest k v

/-- `ComputationNetwork::GetEvalOrder`.  The method is `const`, so the cache is
returned unchanged alongside the result.  On a missing entry the source raises
`LogicError` whose message formats `rootNode->NodeName()` and
`rootNode->OperationName()`; when `rootNode` is null that is a null-pointer
dereference, modelled as `Err.nullDeref`. -/
def GetEvalOrder (net : Net nn) (cache : EvalCache nn) (root : Option (Fin nn)) :
    Except Err (List (Fin nn)) × EvalCache nn :=
  (match lookupCache cache root with
    | some l => .ok l
    | none =>
      .error (match root with
        | some r =>
          .logicError ("GetEvalOrder: Called without prior call to FormEvalOrder() for "
            ++ net.name r ++ " " ++ net.opName r ++ " operation")
        | none => .nullDeref),
    cache)

/-- `ComputationNetwork::FormEvalOrder`.  Returns the updated cache and the
warning diagnostics printed to stderr. -/
def FormEvalOrder (net : Net nn) (cache : EvalCache nn) (root : Option (Fin nn)) :
    Except Err (EvalCache nn × List String) :=
  let warnings :=
    match lookupCache cache root with
    | some _ =>
      match root with
      | some r =>
        ["FormEvalOrder: WARNING: Was called twice for " ++ net.name r ++ " "
          ++ net.opName r ++ " operation."]
      | none => ["FormEvalOrder: WARNING: Was called twice."]
    | none => []
  match root with
  | none => .ok (insertCache cache none (PostOrderTraversal net net.allRoots), warnings)
  | some r =>
    let raw := PostOrderTraversal net [r]
    match (GetEvalOrder net cache none).1 with
    | .error e => .error e
    | .ok g =>
      .ok (insertCache cache (some r) (g.filter (fun x => decide (x ∈ raw))), warnings)

/-- `ComputationNetwork::SortByGlobalEvalOrder`, instantiated at plain node
containers: a one-element container is returned as-is; otherwise the global
order is filtered to the members of the given container. -/
def SortByGlobalEvalOrder (net : Net nn) (cache : EvalCache nn)
    (nodesToSort : List (Fin nn)) : Except Err (List (Fin nn)) :=
  if nodesToSort.length = 1 then .ok nodesToSort
  else
    match (GetEvalOrder net cache none).1 with
    | .error e => .error e
    | .ok g => .ok (g.filter (fun x => decide (x ∈ nodesToSort)))

/-- What `TravserseInSortedGlobalEvalOrder` passes to its action: either a
plain node or a loop's SEQ flow-control unit. -/
inductive TraversalEntry (nn : Nat) where
  | node (x : Fin nn)
  | seq (l : SEQLoop nn)
  deriving DecidableEq

/-- Modelled from the spec: `ComputationNetwork::FindInRecurrentLoops`
(declared at `ComputationNetwork.h:412`, defined in a `.cpp` file not under
`src/`): returns the entry of `m_allSEQNodes` whose member list contains the
node, if any. -/
def FindInRecurrentLoops (loops : List (SEQLoop nn)) (x : Fin nn) : Option (SEQLoop nn) :=
  loops.find? (fun l => decide (x ∈ l.members))

/-- One step of the loop-collapsing walk of `TravserseInSortedGlobalEvalOrder`
(`ComputationNetwork.h:190-204`).  The accumulator holds `completedSEQNodes`
(as the list of SEQ units already passed to the action; the source keys the
set by the unit's pointer, and `FindInRecurrentLoops` always returns the first
matching entry of `m_allSEQNodes`, so unit values coincide with pointers) and
the entries passed to the action so far.  A loop node whose loop is not found
(`recInfo == nullptr`) leads to `node = nullptr` and is skipped. -/
def collapseStep (net : Net nn) (acc : List (SEQLoop nn) × List (TraversalEntry nn))
    (x : Fin nn) : List (SEQLoop nn) × List (TraversalEntry nn) :=
  if net.isPartOfLoop x then
    match FindInRecurrentLoops net.seqLoops x with
    | some l => if l ∈ acc.1 then acc else (l :: acc.1, acc.2 ++ [TraversalEntry.seq l])
    | none => acc
  else (acc.1, acc.2 ++ [TraversalEntry.node x])

/-- The loop-collapsing walk over a sorted combined order: the sequence of
entries passed to the action. -/
def collapseLoopNodes (net : Net nn) (sorted : List (Fin nn)) : List (TraversalEntry nn) :=
  (sorted.foldl (collapseStep net) ([], [])).2

/-- The concatenation of the cached eval orders of the requested nodes
(`ComputationNetwork.h:181-186`). -/
def combineEvalOrders (net : Net nn) (cache : EvalCache nn) :
    List (Fin nn) → Except Err (List (Fin nn))
  | [] => .ok []
  | x :: rest =>
    match (GetEvalOrder net cache (some x)).1 with
    | .error e => .error e
    | .ok o =>
      match combineEvalOrders net cache rest with
      | .error e => .error e
      | .ok r => .ok (o ++ r)

/-- `ComputationNetwork::TravserseInSortedGlobalEvalOrder`: the sequence of
entries (plain nodes and SEQ flow-control units) passed to the action. -/
def TravserseInSortedGlobalEvalOrder (net : Net nn) (cache : EvalCache nn)
    (nodes : List (Fin nn)) : Except Err (List (TraversalEntry nn)) :=
  match combineEvalOrders net cache nodes with
  | .error e => .error e
  | .ok combined =>
    match SortByGlobalEvalOrder net cache combined with
    | .error e => .error e
    | .ok sorted => .ok (collapseLoopNodes net sorted)

/-- `GetInputs()` of a traversal entry.  Modelled from the spec for the SEQ
case: a flow-control unit abstracts a node group and has no attached inputs
(`FlowControlNode` in `ComputationNode.h`, not under `src/`, never attaches
`m_inputs`). -/
def entryInputs (net : Net nn) : TraversalEntry nn → List (Fin nn)
  | .node x => net.inputs x
  | .seq _ => []

/-- One step of the `nodesToForward` accumulation of
`ComputationNetwork::ForwardPropFromTo` (`ComputationNetwork.h:228-236`): the
entry is inserted into the set when one of its inputs is in `nodesFrom` or
already in `nodesToForward`. -/
def fromToInsert (net : Net nn) (nodesFrom : List (Fin nn))
    (acc : List (TraversalEntry nn)) (e : TraversalEntry nn) : List (TraversalEntry nn) :=
  if (entryInputs net e).any
      (fun c => decide (c ∈ nodesFrom) || decide (TraversalEntry.node c ∈ acc)) then
    if e ∈ acc then acc else acc ++ [e]
  else acc

/-- `ComputationNetwork::SortByGlobalEvalOrder` instantiated at the
`nodesToForward` set of `ForwardPropFromTo`, whose elements are
`ComputationNodeBasePtr`s that may be plain nodes or SEQ units; the global
order consists of plain nodes, so only those can match the filter. -/
def SortEntriesByGlobalEvalOrder (net : Net nn) (cache : EvalCache nn)
    (es : List (TraversalEntry nn)) : Except Err (List (TraversalEntry nn)) :=
  if es.length = 1 then .ok es
  else
    match (GetEvalOrder net cache none).1 with
    | .error e => .error e
    | .ok g =>
      .ok ((g.filter (fun x => decide (TraversalEntry.node x ∈ es))).map TraversalEntry.node)

/-- `ComputationNetwork::ForwardPropFromTo`: the ordered sequence of entries on
which `PARTraversalFlowControlNode::ForwardProp` is invoked. -/
def ForwardPropFromTo (net : Net nn) (cache : EvalCache nn)
    (nodesFrom nodesTo : List (Fin nn)) : Except Err (List (TraversalEntry nn)) :=
  match TravserseInSortedGlobalEvalOrder net cache nodesTo with
  | .error e => .error e
  | .ok entries =>
    SortEntriesByGlobalEvalOrder net cache (entries.foldl (fromToInsert net nodesFrom) [])

/-- The least set of nodes `ForwardPropFromTo` must execute: a member `x` of
the traversal `T` is needed exactly when one of its inputs lies in the
frontier `F` or is itself needed. -/
inductive FromToNeeded (net : Net nn) (T F : List (Fin nn)) : Fin nn → Prop
  | base (x c : Fin nn) (hx : x ∈ T) (hc : c ∈ net.inputs x) (hF : c ∈ F) :
      FromToNeeded net T F x
  | step (x c : Fin nn) (hx : x ∈ T) (hc : c ∈ net.inputs x)
      (hN : FromToNeeded net T F c) : FromToNeeded net T F x

/-- `FrameRange`, opaque for these claims: the time-slice argument of the
forward/backward entry points. -/
structure FrameRange where
  timeIdxInFrame : Option Nat
  deriving DecidableEq

/-- `SEQTraversalFlowControlNode::BackpropTo` (`ComputationNetwork.h:1215`).
Its body is `NOT_IMPLEMENTED`, a macro from `Basics.h` (not under `src/`)
that raises `LogicError`; modelled from the spec as a fatal error. -/
def SEQTraversalFlowControlNode.BackpropTo (inputIndex : Nat) (fr : FrameRange) :
    Except Err Unit :=
  .error (.logicError "SEQTraversalFlowControlNode::BackpropTo: NOT_IMPLEMENTED")

/-- `PARTraversalFlowControlNode::BackpropTo` (`ComputationNetwork.h:1273`).
Its body is `NOT_IMPLEMENTED`, a macro from `Basics.h` (not under `src/`)
that raises `LogicError`; modelled from the spec as a fatal error. -/
def PARTraversalFlowControlNode.BackpropTo (inputIndex : Nat) (fr : FrameRange) :
    Except Err Unit :=
  .error (.logicError "PARTraversalFlowControlNode::BackpropTo: NOT_IMPLEMENTED")

/-- Node object for the name-map claims: `NodeName()`, `OperationName()` and
`m_uniqueNumericId` (standing in for pointer identity). -/
structure NodeObj where
  name : String
  opName : String
  uid : Nat
  deriving DecidableEq

/-- Case-insensitive name comparison: `m_nameToNodeMap` is declared with the
`nocase_compare` key comparator (which compares characters after `towlower`).
Stated over the character lists so that it evaluates by kernel reduction. -/
def nameEq (a b : String) : Bool := a.data.map Char.toLower == b.data.map Char.toLower

/-- `m_nameToNodeMap` as an association list with case-insensitive keys
(the `std::map` key ordering is irrelevant to the claims). -/
abbrev NodeMap := List (String × NodeObj)

/-- Whether the map already holds an entry under an equivalent name. -/
def containsName (m : NodeMap) (s : String) : Bool := m.any (fun p => nameEq p.1 s)

/-- `ComputationNetwork::AddNodeToNet` (`ComputationNetwork.h:951-958`): the
`std::map::insert` inserts only when the key is fresh; a duplicate raises
`RuntimeError` and leaves the map as it was.  (`SetEnvironment` touches no
state modelled here.)  Returns the result together with the resulting map. -/
def AddNodeToNet (m : NodeMap) (node : NodeObj) : Except Err NodeObj × NodeMap :=
  if containsName m node.name then
    (.error (.runtimeError ("AddNodeToNet: Duplicated name for " ++ node.name ++ " "
      ++ node.opName ++ " operation.")), m)
  else
    (.ok node, m ++ [(node.name, node)])

/-- A node as seen by the node-group operations: identity plus its membership
tag set (`m_tags`). -/
structure TaggedNode where
  name : String
  opName : String
  uid : Nat
  tags : List String
  deriving DecidableEq

/-- Modelled from the spec: `ComputationNodeBase::ClearTag`
(`ComputationNode.h`, not under `src/`): removes the membership tag from the
node and reports whether it was actually set. -/
def ClearTag (node : TaggedNode) (tag : String) : Bool × TaggedNode :=
  (decide (tag ∈ node.tags), { node with tags := node.tags.erase tag })

/-- The five node-group vectors of `ComputationNetwork`, holding node
identities (`uid`s, standing in for `ComputationNodeBasePtr`). -/
structure NodeGroups where
  featureNodes : List Nat
  labelNodes : List Nat
  criterionNodes : List Nat
  evaluationNodes : List Nat
  outputNodes : List Nat
  deriving DecidableEq

/-- `ComputationNetwork::GetNodeGroup` (`ComputationNetwork.h:705-719`). -/
def GetNodeGroup (gs : NodeGroups) (tag : String) : Except Err (List Nat) :=
  if tag = "feature" then .ok gs.featureNodes
  else if tag = "label" then .ok gs.labelNodes
  else if tag = "criterion" then .ok gs.criterionNodes
  else if tag = "evaluation" then .ok gs.evaluationNodes
  else if tag = "output" then .ok gs.outputNodes
  else .error (.invalidArgument ("Invalid group tag " ++ tag
    ++ ", must be one of feature, label, criterion, evaluation, output."))

/-- Write-back companion of `GetNodeGroup`: the source returns the group
vector by reference and mutates it in place. -/
def SetNodeGroup (gs : NodeGroups) (tag : String) (v : List Nat) : NodeGroups :=
  if tag = "feature" then { gs with featureNodes := v }
  else if tag = "label" then { gs with labelNodes := v }
  else if tag = "criterion" then { gs with criterionNodes := v }
  else if tag = "evaluation" then { gs with evaluationNodes := v }
  else if tag = "output" then { gs with outputNodes := v }
  else gs

/-- `ComputationNetwork::RemoveFromNodeGroup` (`ComputationNetwork.h:745-760`).
Returns the flag the source returns, the updated groups, and the updated node
(whose tag was cleared). -/
def RemoveFromNodeGroup (gs : NodeGroups) (tag : String) (node : TaggedNode) :
    Except Err (Bool × NodeGroups × TaggedNode) :=
  let r := ClearTag node tag
  if r.1 = false then .ok (false, gs, r.2)
  else
    match GetNodeGroup gs tag with
    | .error e => .error e
    | .ok grp =>
      if node.uid ∈ grp then .ok (true, SetNodeGroup gs tag (grp.erase node.uid), r.2)
      else .error (.logicError ("RemoveFromNodeGroup: " ++ node.name ++ " " ++ node.opName
        ++ " operation not found in its node group " ++ tag ++ "."))

/-! ### Concrete networks and states used by the witnesses and counterexamples -/

/-- Two-node chain: node 1 has input node 0; node 1 is the only declared root. -/
def netA : Net 2 where
  inputs := fun x => if x = 1 then [0] else []
  allRoots := [1]
  isPartOfLoop := fun _ => false
  seqLoops := []
  name := fun x => if x = 1 then "b" else "a"
  opName := fun _ => "Plus"

/-- Two nodes with no edges; only node 0 is reachable from the declared root,
so node 1 never occurs in the global order. -/
def netB : Net 2 where
  inputs := fun _ => []
  allRoots := [0]
  isPartOfLoop := fun _ => false
  seqLoops := []
  name := fun x => if x = 1 then "b" else "a"
  opName := fun _ => "Plus"

/-- The SEQ flow-control unit of the recurrent loop of `netLoop`. -/
def loopA : SEQLoop 3 := ⟨0, [0, 1]⟩

/-- Three nodes; nodes 0 and 1 form a recurrent loop represented by `loopA`,
node 2 is an unrelated plain node. -/
def netLoop : Net 3 where
  inputs := fun x => if x = 1 then [0] else if x = 0 then [1] else []
  allRoots := [1, 2]
  isPartOfLoop := fun x => decide (x.val < 2)
  seqLoops := [loopA]
  name := fun _ => "n"
  opName := fun _ => "Plus"

/-- Eval-order cache for `netLoop`: global order plus per-root orders for the
requested roots 1 and 2. -/
def cacheLoop : EvalCache 3 := [(none, [0, 1, 2]), (some 1, [0, 1]), (some 2, [2])]

/-- Three-node chain: node 2 has input 1, node 1 has input 0; root 2. -/
def netChain3 : Net 3 where
  inputs := fun x => if x = 2 then [1] else if x = 1 then [0] else []
  allRoots := [2]
  isPartOfLoop := fun _ => false
  seqLoops := []
  name := fun _ => "n"
  opName := fun _ => "Plus"

/-- Eval-order cache for `netChain3` as produced by `FormEvalOrder` for the
null root and then for root 2. -/
def cacheChain3 : EvalCache 3 := [(none, [0, 1, 2]), (some 2, [0, 1, 2])]

/-- Eval-order cache for `netA` as produced by `FormEvalOrder` for the null
root and then for root 1. -/
def cacheA : EvalCache 2 := [(none, [0, 1]), (some 1, [0, 1])]

/-- A sample node for the name-map claims. -/
def nodeX : NodeObj := ⟨"x", "Plus", 3⟩

/-- A second node carrying the same name as `nodeX` (up to case). -/
def nodeX2 : NodeObj := ⟨"X", "Times", 4⟩

/-- A node carrying the `feature` tag, listed in the feature group of `gsA`. -/
def taggedF : TaggedNode := ⟨"f", "InputValue", 7, ["feature"]⟩

/-- A node carrying the `feature` tag but not listed in any group. -/
def taggedGhost : TaggedNode := ⟨"g", "InputValue", 8, ["feature"]⟩

/-- A node carrying no tags. -/
def taggedNone : TaggedNode := ⟨"h", "InputValue", 9, []⟩

/-- The SEQ flow-control unit of the recurrent loop of `netLoopChain`. -/
def loopB : SEQLoop 4 := ⟨0, [1, 2]⟩

/-- Four nodes: node 0 feeds the recurrent loop `{1, 2}` (represented by
`loopB`), whose node 2 feeds the plain node 3; node 3 is the declared root. -/
def netLoopChain : Net 4 where
  inputs := fun x =>
    if x = 1 then [0, 2] else if x = 2 then [1] else if x = 3 then [2] else []
  allRoots := [3]
  isPartOfLoop := fun x => decide (x = 1 ∨ x = 2)
  seqLoops := [loopB]
  name := fun _ => "n"
  opName := fun _ => "Plus"

/-- Eval-order cache for `netLoopChain` as produced by `FormEvalOrder` for
the null root and then for root 3. -/
def cacheLoopChain : EvalCache 4 := [(none, [0, 1, 2, 3]), (some 3, [0, 1, 2, 3])]

/-- Node groups whose feature group holds exactly `taggedF`. -/
def gsA : NodeGroups := ⟨[7], [], [], [], []⟩

/-! ### Lemmas about the eval-order cache -/

theorem lookupCache_insertCache_self (c : EvalCache nn) (k : Option (Fin nn))
    (v : List (Fin nn)) : lookupCache (insertCache c k v) k = some v := by
  induction c with
  | nil => simp [insertCache, lookupCache]
  | cons p rest ih =>
    by_cases h : p.1 = k
    · simp [insertCache, h, lookupCache]
    · simp [insertCache, h, lookupCache, ih]

theorem lookupCache_insertCache_ne (c : EvalCache nn) (k k' : Option (Fin nn))
    (v : List (Fin nn)) (hne : k ≠ k') :
    lookupCache (insertCache c k v) k' = lookupCache c k' := by
  induction c with
  | nil => simp [insertCache, lookupCache, hne]
  | cons p rest ih =>
    by_cases h : p.1 = k
    · have : ¬ (k = k') := hne
      simp [insertCache, h, lookupCache, this]
    · simp [insertCache, h, lookupCache, ih]

/-! ### Lemmas about the depth-first traversal -/

theorem phi_cons (net : Net nn) (e : Fin nn × Bool) (rest : List (Fin nn × Bool))
    (vis : Finset (Fin nn)) : phi net vis rest + 1 = phi net vis (e :: rest) := by
  simp [phi]; omega

theorem sdiff_insert_eq_erase (vis : Finset (Fin nn)) (u : Fin nn) :
    Finset.univ \ insert u vis = (Finset.univ \ vis).erase u := by
  ext x
  simp only [Finset.mem_sdiff, Finset.mem_insert, Finset.mem_erase, Finset.mem_univ,
    true_and]
  tauto

theorem phi_enter_fresh (net : Net nn) (u : Fin nn) (rest : List (Fin nn × Bool))
    (vis : Finset (Fin nn)) (h : u ∉ vis) :
    phi net (insert u vis) (((net.inputs u).map (fun c => (c, false))) ++ (u, true) :: rest)
      + 1 = phi net vis ((u, false) :: rest) := by
  have hmem : u ∈ Finset.univ \ vis := by simp [h]
  have hsum : (Finset.univ \ vis).sum (stepCost net)
      = (Finset.univ \ insert u vis).sum (stepCost net) + stepCost net u := by
    rw [sdiff_insert_eq_erase]
    exact (Finset.sum_erase_add _ _ hmem).symm
  have hstep : stepCost net u = (net.inputs u).length + 1 := rfl
  simp only [phi, List.length_append, List.length_map, List.length_cons, hsum]
  omega

theorem dfsAux_vis_subset (net : Net nn) :
    ∀ (fuel : Nat) (wl : List (Fin nn × Bool)) (vis : Finset (Fin nn)) (out : List (Fin nn)),
      vis ⊆ (dfsAux net fuel wl vis out).1
  | 0, wl, vis, out => by simp [dfsAux]
  | fuel + 1, [], vis, out => by simp [dfsAux]
  | fuel + 1, (u, true) :: rest, vis, out => by
    simpa [dfsAux] using dfsAux_vis_subset net fuel rest vis (out ++ [u])
  | fuel + 1, (u, false) :: rest, vis, out => by
    by_cases h : u ∈ vis
    · simpa [dfsAux, h] using dfsAux_vis_subset net fuel rest vis out
    · simp only [dfsAux, h, if_false]
      exact (Finset.subset_insert u vis).trans (dfsAux_vis_subset net fuel _ _ out)

theorem dfsAux_vis_sound (net : Net nn) :
    ∀ (fuel : Nat) (wl : List (Fin nn × Bool)) (vis : Finset (Fin nn)) (out : List (Fin nn)),
      ∀ v ∈ (dfsAux net fuel wl vis out).1,
        v ∈ vis ∨ ∃ x, (x, false) ∈ wl ∧ Reaches net x v
  | 0, wl, vis, out => by
    intro v hv
    simp only [dfsAux] at hv
    exact Or.inl hv
  | fuel + 1, [], vis, out => by
    intro v hv
    simp only [dfsAux] at hv
    exact Or.inl hv
  | fuel + 1, (u, true) :: rest, vis, out => by
    intro v hv
    simp only [dfsAux] at hv
    rcases dfsAux_vis_sound net fuel rest vis (out ++ [u]) v hv with h | ⟨x, hx, hr⟩
    · exact Or.inl h
    · exact Or.inr ⟨x, List.mem_cons_of_mem _ hx, hr⟩
  | fuel + 1, (u, false) :: rest, vis, out => by
    intro v hv
    by_cases h : u ∈ vis
    · simp only [dfsAux, h, if_true] at hv
      rcases dfsAux_vis_sound net fuel rest vis out v hv with h' | ⟨x, hx, hr⟩
      · exact Or.inl h'
      · exact Or.inr ⟨x, List.mem_cons_of_mem _ hx, hr⟩
    · simp only [dfsAux, h, if_false] at hv
      rcases dfsAux_vis_sound net fuel _ _ out v hv with h' | ⟨x, hx, hr⟩
      · rcases Finset.mem_insert.mp h' with rfl | h''
        · exact Or.inr ⟨v, List.mem_cons_self _ _, Relation.ReflTransGen.refl⟩
        · exact Or.inl h''
      · rcases List.mem_append.mp hx with hx' | hx'
        · rcases List.mem_map.mp hx' with ⟨c, hc, hceq⟩
          have hcx : x ∈ net.inputs u := by
            have : c = x := congrArg Prod.fst hceq
            exact this ▸ hc
          exact Or.inr ⟨u, List.mem_cons_self _ _, Relation.ReflTransGen.head hcx hr⟩
        · rcases List.mem_cons.mp hx' with hx'' | hx''
          · exact absurd (congrArg Prod.snd hx'') (by simp)
          · exact Or.inr ⟨x, List.mem_cons_of_mem _ hx'', hr⟩

theorem length_eq_zero_of_phi_le_zero (net : Net nn) {wl : List (Fin nn × Bool)}
    {vis : Finset (Fin nn)} (h : phi net vis wl ≤ 0) : wl = [] := by
  have : wl.length = 0 := by simp only [phi] at h; omega
  exact List.length_eq_zero.mp this

theorem dfsAux_enters_visited (net : Net nn) :
    ∀ (fuel : Nat) (wl : List (Fin nn × Bool)) (vis : Finset (Fin nn)) (out : List (Fin nn)),
      phi net vis wl ≤ fuel →
      ∀ x, (x, false) ∈ wl → x ∈ (dfsAux net fuel wl vis out).1
  | 0, wl, vis, out => by
    intro hfuel x hx
    rw [length_eq_zero_of_phi_le_zero net hfuel] at hx
    exact absurd hx (List.not_mem_nil _)
  | fuel + 1, [], vis, out => by
    intro hfuel x hx
    exact absurd hx (List.not_mem_nil _)
  | fuel + 1, (u, true) :: rest, vis, out => by
    intro hfuel x hx
    have hfuel' : phi net vis rest ≤ fuel := by
      have := phi_cons net (u, true) rest vis
      omega
    rcases List.mem_cons.mp hx with h | h
    · exact absurd (congrArg Prod.snd h) (by simp)
    · simpa [dfsAux] using dfsAux_enters_visited net fuel rest vis (out ++ [u]) hfuel' x h
  | fuel + 1, (u, false) :: rest, vis, out => by
    intro hfuel x hx
    by_cases h : u ∈ vis
    · have hfuel' : phi net vis rest ≤ fuel := by
        have := phi_cons net (u, false) rest vis
        omega
      rcases List.mem_cons.mp hx with h' | h'
      · have : x = u := congrArg Prod.fst h'
        subst this
        simp only [dfsAux, h, if_true]
        exact dfsAux_vis_subset net fuel rest vis out h
      · simp only [dfsAux, h, if_true]
        exact dfsAux_enters_visited net fuel rest vis out hfuel' x h'
    · have hfuel' : phi net (insert u vis)
          (((net.inputs u).map (fun c => (c, false))) ++ (u, true) :: rest) ≤ fuel := by
        have := phi_enter_fresh net u rest vis h
        omega
      simp only [dfsAux, h, if_false]
      rcases List.mem_cons.mp hx with h' | h'
      · have : x = u := congrArg Prod.fst h'
        subst this
        exact dfsAux_vis_subset net fuel _ _ out (Finset.mem_insert_self x vis)
      · exact dfsAux_enters_visited net fuel _ _ out hfuel' x
          (List.mem_append_right _ (List.mem_cons_of_mem _ h'))

theorem dfsAux_closed (net : Net nn) :
    ∀ (fuel : Nat) (wl : List (Fin nn × Bool)) (vis : Finset (Fin nn)) (out : List (Fin nn)),
      phi net vis wl ≤ fuel →
      (∀ u ∈ vis, ∀ c ∈ net.inputs u, c ∈ vis ∨ (c, false) ∈ wl) →
      ∀ u ∈ (dfsAux net fuel wl vis out).1, ∀ c ∈ net.inputs u,
        c ∈ (dfsAux net fuel wl vis out).1
  | 0, wl, vis, out => by
    intro hfuel hP u hu c hc
    have hwl := length_eq_zero_of_phi_le_zero net hfuel
    subst hwl
    simp only [dfsAux] at hu ⊢
    rcases hP u hu c hc with h | h
    · exact h
    · exact absurd h (List.not_mem_nil _)
  | fuel + 1, [], vis, out => by
    intro hfuel hP u hu c hc
    simp only [dfsAux] at hu ⊢
    rcases hP u hu c hc with h | h
    · exact h
    · exact absurd h (List.not_mem_nil _)
  | fuel + 1, (u0, true) :: rest, vis, out => by
    intro hfuel hP
    have hfuel' : phi net vis rest ≤ fuel := by
      have := phi_cons net (u0, true) rest vis
      omega
    have hP' : ∀ u ∈ vis, ∀ c ∈ net.inputs u, c ∈ vis ∨ (c, false) ∈ rest := by
      intro u hu c hc
      rcases hP u hu c hc with h | h
      · exact Or.inl h
      · rcases List.mem_cons.mp h with h' | h'
        · exact absurd (congrArg Prod.snd h') (by simp)
        · exact Or.inr h'
    simpa only [dfsAux] using dfsAux_closed net fuel rest vis (out ++ [u0]) hfuel' hP'
  | fuel + 1, (u0, false) :: rest, vis, out => by
    intro hfuel hP
    by_cases h : u0 ∈ vis
    · have hfuel' : phi net vis rest ≤ fuel := by
        have := phi_cons net (u0, false) rest vis
        omega
      have hP' : ∀ u ∈ vis, ∀ c ∈ net.inputs u, c ∈ vis ∨ (c, false) ∈ rest := by
        intro u hu c hc
        rcases hP u hu c hc with h' | h'
        · exact Or.inl h'
        · rcases List.mem_cons.mp h' with h'' | h''
          · have : c = u0 := congrArg Prod.fst h''
            exact Or.inl (this ▸ h)
          · exact Or.inr h''
      simpa only [dfsAux, h, if_true] using
        dfsAux_closed net fuel rest vis out hfuel' hP'
    · have hfuel' : phi net (insert u0 vis)
          (((net.inputs u0).map (fun c => (c, false))) ++ (u0, true) :: rest) ≤ fuel := by
        have := phi_enter_fresh net u0 rest vis h
        omega
      have hP' : ∀ u ∈ insert u0 vis, ∀ c ∈ net.inputs u,
          c ∈ insert u0 vis ∨
            (c, false) ∈ ((net.inputs u0).map (fun c => (c, false))) ++ (u0, true) :: rest := by
        intro u hu c hc
        rcases Finset.mem_insert.mp hu with rfl | hu'
        · exact Or.inr (List.mem_append_left _ (List.mem_map.mpr ⟨c, hc, rfl⟩))
        · rcases hP u hu' c hc with h' | h'
          · exact Or.inl (Finset.mem_insert_of_mem h')
          · rcases List.mem_cons.mp h' with h'' | h''
            · have : c = u0 := congrArg Prod.fst h''
              exact Or.inl (this ▸ Finset.mem_insert_self u0 vis)
            · exact Or.inr (List.mem_append_right _ (List.mem_cons_of_mem _ h''))
      simpa only [dfsAux, h, if_false] using
        dfsAux_closed net fuel _ _ out hfuel' hP'

theorem exitsOf_nil : exitsOf ([] : List (Fin nn × Bool)) = [] := rfl

theorem exitsOf_cons_true (u : Fin nn) (rest : List (Fin nn × Bool)) :
    exitsOf ((u, true) :: rest) = u :: exitsOf rest := by simp [exitsOf]

theorem exitsOf_cons_false (u : Fin nn) (rest : List (Fin nn × Bool)) :
    exitsOf ((u, false) :: rest) = exitsOf rest := by simp [exitsOf]

theorem exitsOf_enter_append (l : List (Fin nn)) (u : Fin nn)
    (rest : List (Fin nn × Bool)) :
    exitsOf ((l.map (fun c => (c, false))) ++ (u, true) :: rest) = u :: exitsOf rest := by
  induction l with
  | nil => simp [exitsOf]
  | cons c l ih =>
    simp only [List.map_cons, List.cons_append]
    rw [show exitsOf ((c, false) :: (l.map (fun c => (c, false)) ++ (u, true) :: rest))
        = exitsOf (l.map (fun c => (c, false)) ++ (u, true) :: rest) from by simp [exitsOf]]
    exact ih

theorem exitsOf_map_enter (l : List (Fin nn)) :
    exitsOf (l.map (fun c => (c, false))) = [] := by
  induction l with
  | nil => rfl
  | cons c l ih =>
    simp only [List.map_cons]
    rw [show exitsOf ((c, false) :: l.map (fun c => (c, false)))
        = exitsOf (l.map (fun c => (c, false))) from by simp [exitsOf]]
    exact ih

theorem dfsAux_partition (net : Net nn) :
    ∀ (fuel : Nat) (wl : List (Fin nn × Bool)) (vis : Finset (Fin nn)) (out : List (Fin nn)),
      phi net vis wl ≤ fuel →
      vis = (out ++ exitsOf wl).toFinset →
      (out ++ exitsOf wl).Nodup →
      (dfsAux net fuel wl vis out).1 = (dfsAux net fuel wl vis out).2.toFinset ∧
        (dfsAux net fuel wl vis out).2.Nodup
  | 0, wl, vis, out => by
    intro hfuel hev hnd
    have hwl := length_eq_zero_of_phi_le_zero net hfuel
    subst hwl
    simp only [dfsAux]
    simp only [exitsOf_nil, List.append_nil] at hev hnd
    exact ⟨hev, hnd⟩
  | fuel + 1, [], vis, out => by
    intro hfuel hev hnd
    simp only [dfsAux]
    simp only [exitsOf_nil, List.append_nil] at hev hnd
    exact ⟨hev, hnd⟩
  | fuel + 1, (u, true) :: rest, vis, out => by
    intro hfuel hev hnd
    have hfuel' : phi net vis rest ≤ fuel := by
      have := phi_cons net (u, true) rest vis
      omega
    have hassoc : out ++ exitsOf ((u, true) :: rest) = (out ++ [u]) ++ exitsOf rest := by
      simp [exitsOf_cons_true]
    rw [hassoc] at hev hnd
    simpa only [dfsAux] using dfsAux_partition net fuel rest vis (out ++ [u]) hfuel' hev hnd
  | fuel + 1, (u, false) :: rest, vis, out => by
    intro hfuel hev hnd
    rw [exitsOf_cons_false] at hev hnd
    by_cases h : u ∈ vis
    · have hfuel' : phi net vis rest ≤ fuel := by
        have := phi_cons net (u, false) rest vis
        omega
      simpa only [dfsAux, h, if_true] using
        dfsAux_partition net fuel rest vis out hfuel' hev hnd
    · have hfuel' : phi net (insert u vis)
          (((net.inputs u).map (fun c => (c, false))) ++ (u, true) :: rest) ≤ fuel := by
        have := phi_enter_fresh net u rest vis h
        omega
      have hnotmem : u ∉ out ++ exitsOf rest := by
        intro hc
        exact h (hev ▸ List.mem_toFinset.mpr hc)
      have hev' : insert u vis =
          (out ++ exitsOf (((net.inputs u).map (fun c => (c, false))) ++ (u, true) :: rest)).toFinset := by
        rw [exitsOf_enter_append, hev]
        ext x
        simp only [Finset.mem_insert, List.mem_toFinset, List.mem_append, List.mem_cons]
        tauto
      have hnd' :
          (out ++ exitsOf (((net.inputs u).map (fun c => (c, false))) ++ (u, true) :: rest)).Nodup := by
        rw [exitsOf_enter_append]
        rw [List.nodup_middle]
        exact List.nodup_cons.mpr ⟨hnotmem, hnd⟩
      simpa only [dfsAux, h, if_false] using
        dfsAux_partition net fuel _ _ out hfuel' hev' hnd'

theorem nodup_postOrderTraversal (net : Net nn) (roots : List (Fin nn)) :
    (PostOrderTraversal net roots).Nodup := by
  simp only [PostOrderTraversal]
  exact (dfsAux_partition net (phi net ∅ (roots.map (fun r => (r, false))))
    (roots.map (fun r => (r, false))) ∅ [] le_rfl
    (by simp [exitsOf_map_enter]) (by simp [exitsOf_map_enter])).2

theorem mem_postOrderTraversal (net : Net nn) (roots : List (Fin nn)) (x : Fin nn) :
    x ∈ PostOrderTraversal net roots ↔ ∃ r ∈ roots, Reaches net r x := by
  have hpart := dfsAux_partition net (phi net ∅ (roots.map (fun r => (r, false))))
    (roots.map (fun r => (r, false))) ∅ [] le_rfl
    (by simp [exitsOf_map_enter]) (by simp [exitsOf_map_enter])
  simp only [PostOrderTraversal]
  constructor
  · intro hx
    have hx1 : x ∈ (dfsAux net (phi net ∅ (roots.map (fun r => (r, false))))
        (roots.map (fun r => (r, false))) ∅ []).1 := by
      rw [hpart.1]
      exact List.mem_toFinset.mpr hx
    rcases dfsAux_vis_sound net _ _ _ _ x hx1 with h | ⟨y, hy, hr⟩
    · exact absurd h (Finset.not_mem_empty x)
    · rcases List.mem_map.mp hy with ⟨r, hrroots, hre⟩
      have hry : r = y := congrArg Prod.fst hre
      exact ⟨r, hrroots, hry ▸ hr⟩
  · rintro ⟨r, hr, hreach⟩
    have hclosed := dfsAux_closed net (phi net ∅ (roots.map (fun r => (r, false))))
      (roots.map (fun r => (r, false))) ∅ [] le_rfl
      (by intro u hu; exact absurd hu (Finset.not_mem_empty u))
    have hrvis : r ∈ (dfsAux net (phi net ∅ (roots.map (fun r => (r, false))))
        (roots.map (fun r => (r, false))) ∅ []).1 :=
      dfsAux_enters_visited net _ _ ∅ [] le_rfl r (List.mem_map.mpr ⟨r, hr, rfl⟩)
    have hxvis : x ∈ (dfsAux net (phi net ∅ (roots.map (fun r => (r, false))))
        (roots.map (fun r => (r, false))) ∅ []).1 := by
      induction hreach with
      | refl => exact hrvis
      | tail h₁ h₂ ih => exact hclosed _ ih _ h₂
    rw [hpart.1] at hxvis
    exact List.mem_toFinset.mp hxvis

/-! ### List helpers -/

theorem filter_eq_singleton {g : List (Fin nn)} {x : Fin nn} (hnd : g.Nodup) (hx : x ∈ g) :
    g.filter (fun y => decide (y = x)) = [x] := by
  induction g with
  | nil => exact absurd hx (List.not_mem_nil x)
  | cons a g ih =>
    by_cases hax : a = x
    · subst hax
      have hnot : a ∉ g := (List.nodup_cons.mp hnd).1
      have hrest : g.filter (fun y => decide (y = a)) = [] := by
        rw [List.filter_eq_nil_iff]
        intro b hb
        simp only [decide_eq_true_eq]
        intro hba
        exact hnot (hba ▸ hb)
      simp [List.filter_cons, hrest]
    · have hx' : x ∈ g := by
        rcases List.mem_cons.mp hx with h | h
        · exact absurd h.symm hax
        · exact h
      simp [List.filter_cons, hax, ih (List.nodup_cons.mp hnd).2 hx']

theorem filter_mem_singleton {g : List (Fin nn)} {x : Fin nn} (hnd : g.Nodup) (hx : x ∈ g) :
    g.filter (fun y => decide (y ∈ [x])) = [x] := by
  have hpred : (fun y : Fin nn => decide (y ∈ [x])) = fun y => decide (y = x) := by
    funext y
    simp
  rw [hpred]
  exact filter_eq_singleton hnd hx

theorem pair_sublist_filter {g : List (Fin nn)} {a b : Fin nn} {p : Fin nn → Bool}
    (ha : p a = true) (hb : p b = true) (h : [a, b].Sublist g) :
    [a, b].Sublist (g.filter p) := by
  have h2 := List.Sublist.filter p h
  have h3 : [a, b].filter p = [a, b] := by simp [List.filter_cons, ha, hb]
  rw [h3] at h2
  exact h2

theorem sortByGlobalEvalOrder_eq_filter (net : Net nn) (cache : EvalCache nn)
    {g : List (Fin nn)} (hg : lookupCache cache none = some g) (hnd : g.Nodup)
    (ns : List (Fin nn)) (hmem : ∀ x ∈ ns, x ∈ g) :
    SortByGlobalEvalOrder net cache ns = .ok (g.filter (fun x => decide (x ∈ ns))) := by
  by_cases hlen : ns.length = 1
  · obtain ⟨x, rfl⟩ : ∃ x, ns = [x] := List.length_eq_one.mp hlen
    simp only [SortByGlobalEvalOrder, hlen, if_true]
    rw [filter_mem_singleton hnd (hmem x (List.mem_singleton_self x))]
  · simp [SortByGlobalEvalOrder, hlen, GetEvalOrder, hg]

/-! ### Characterizations of FormEvalOrder -/

theorem formEvalOrder_none_eq (net : Net nn) (cache : EvalCache nn) :
    ∃ w, FormEvalOrder net cache none
      = .ok (insertCache cache none (PostOrderTraversal net net.allRoots), w) :=
  ⟨_, rfl⟩

theorem formEvalOrder_some_of_global (net : Net nn) (cache : EvalCache nn) (r : Fin nn)
    {g : List (Fin nn)} (hg : lookupCache cache none = some g) :
    ∃ w, FormEvalOrder net cache (some r)
      = .ok (insertCache cache (some r)
          (g.filter (fun x => decide (x ∈ PostOrderTraversal net [r]))), w) := by
  cases hroot : lookupCache cache (some r) with
  | none => exact ⟨[], by simp only [FormEvalOrder, GetEvalOrder, hg, hroot]⟩
  | some _ =>
    exact ⟨["FormEvalOrder: WARNING: Was called twice for " ++ net.name r ++ " "
      ++ net.opName r ++ " operation."],
      by simp only [FormEvalOrder, GetEvalOrder, hg, hroot]⟩

theorem formEvalOrder_some_shape (net : Net nn) (c0 c1 : EvalCache nn) (r : Fin nn)
    (w1 : List String) (h1 : FormEvalOrder net c0 (some r) = .ok (c1, w1)) :
    ∃ g, lookupCache c0 none = some g ∧
      c1 = insertCache c0 (some r)
        (g.filter (fun x => decide (x ∈ PostOrderTraversal net [r]))) := by
  cases hlook : lookupCache c0 none with
  | none => simp [FormEvalOrder, GetEvalOrder, hlook] at h1
  | some g =>
    obtain ⟨w, hw⟩ := formEvalOrder_some_of_global net c0 r hlook
    rw [hw] at h1
    have h1' := Except.ok.inj h1
    exact ⟨g, rfl, (congrArg Prod.fst h1').symm⟩

theorem formEvalOrder_none_shape (net : Net nn) (c0 c1 : EvalCache nn)
    (w1 : List String) (h1 : FormEvalOrder net c0 none = .ok (c1, w1)) :
    c1 = insertCache c0 none (PostOrderTraversal net net.allRoots) := by
  obtain ⟨w, hw⟩ := formEvalOrder_none_eq net c0
  rw [hw] at h1
  exact (congrArg Prod.fst (Except.ok.inj h1)).symm

/-! ### Claim theorems -/

/-- Claim C1: when `FormEvalOrder` is called for roots `r1` and then `r2` after
the global order has been built, each cached per-root order is exactly the
subsequence of the global evaluation order consisting of the nodes of the
root's transitive predecessor set (the root included, since `Reaches` is
reflexive); consequently the two per-root orders place every shared pair of
dependencies in the same relative order. -/
theorem formEvalOrder_root_subsequence_of_global
    (net : Net nn) (c0 c1 c2 c3 : EvalCache nn) (r1 r2 : Fin nn)
    (w1 w2 w3 : List String)
    (h1 : FormEvalOrder net c0 none = .ok (c1, w1))
    (h2 : FormEvalOrder net c1 (some r1) = .ok (c2, w2))
    (h3 : FormEvalOrder net c2 (some r2) = .ok (c3, w3)) :
    ∃ g l1 l2,
      lookupCache c1 none = some g ∧
      lookupCache c2 (some r1) = some l1 ∧
      lookupCache c3 (some r2) = some l2 ∧
      l1 = g.filter (fun x => decide (x ∈ PostOrderTraversal net [r1])) ∧
      l2 = g.filter (fun x => decide (x ∈ PostOrderTraversal net [r2])) ∧
      (∀ x, x ∈ PostOrderTraversal net [r1] ↔ Reaches net r1 x) ∧
      (∀ x, x ∈ PostOrderTraversal net [r2] ↔ Reaches net r2 x) ∧
      r1 ∈ PostOrderTraversal net [r1] ∧
      l1.Sublist g ∧ l2.Sublist g ∧
      (∀ a b, a ∈ l1 → b ∈ l1 → a ∈ l2 → b ∈ l2 →
        ([a, b].Sublist l1 ↔ [a, b].Sublist l2)) := by
  have hc1 := formEvalOrder_none_shape net c0 c1 w1 h1
  subst hc1
  have hg : lookupCache (insertCache c0 none (PostOrderTraversal net net.allRoots)) none
      = some (PostOrderTraversal net net.allRoots) := lookupCache_insertCache_self _ _ _
  obtain ⟨g, hg', hc2⟩ := formEvalOrder_some_shape net _ c2 r1 w2 h2
  rw [hg] at hg'
  have hgg : g = PostOrderTraversal net net.allRoots := (Option.some.inj hg').symm
  subst hgg
  subst hc2
  obtain ⟨g2, hg2', hc3⟩ := formEvalOrder_some_shape net _ c3 r2 w3 h3
  have hg2 : lookupCache (insertCache
      (insertCache c0 none (PostOrderTraversal net net.allRoots)) (some r1)
      ((PostOrderTraversal net net.allRoots).filter
        (fun x => decide (x ∈ PostOrderTraversal net [r1])))) none
      = some (PostOrderTraversal net net.allRoots) := by
    rw [lookupCache_insertCache_ne _ _ _ _ (by simp)]
    exact hg
  rw [hg2] at hg2'
  have hgg2 : g2 = PostOrderTraversal net net.allRoots := (Option.some.inj hg2').symm
  subst hgg2
  subst hc3
  refine ⟨PostOrderTraversal net net.allRoots, _, _, hg, lookupCache_insertCache_self _ _ _,
    lookupCache_insertCache_self _ _ _, rfl, rfl, ?_, ?_, ?_, ?_, ?_, ?_⟩
  · intro x
    rw [mem_postOrderTraversal]
    simp
  · intro x
    rw [mem_postOrderTraversal]
    simp
  · rw [mem_postOrderTraversal]
    exact ⟨r1, List.mem_singleton_self r1, Relation.ReflTransGen.refl⟩
  · exact List.filter_sublist _
  · exact List.filter_sublist _
  · intro a b ha hb ha2 hb2
    have hpa1 := (List.mem_filter.mp ha).2
    have hpb1 := (List.mem_filter.mp hb).2
    have hpa2 := (List.mem_filter.mp ha2).2
    have hpb2 := (List.mem_filter.mp hb2).2
    constructor
    · intro hsub
      exact pair_sublist_filter hpa2 hpb2 (hsub.trans (List.filter_sublist _))
    · intro hsub
      exact pair_sublist_filter hpa1 hpb1 (hsub.trans (List.filter_sublist _))

/-- Claim C1 witness: the chain network `netA`, building the global order and
then the per-root orders for roots 1 and 0. -/
theorem formEvalOrder_root_subsequence_witness :
    FormEvalOrder netA ([] : EvalCache 2) none = .ok ([(none, [0, 1])], []) ∧
    FormEvalOrder netA [(none, [0, 1])] (some 1)
      = .ok ([(none, [0, 1]), (some 1, [0, 1])], []) ∧
    FormEvalOrder netA [(none, [0, 1]), (some 1, [0, 1])] (some 0)
      = .ok ([(none, [0, 1]), (some 1, [0, 1]), (some 0, [0])], []) ∧
    (∃ g l1 l2,
      lookupCache ([(none, [0, 1])] : EvalCache 2) none = some g ∧
      lookupCache ([(none, [0, 1]), (some 1, [0, 1])] : EvalCache 2) (some 1) = some l1 ∧
      lookupCache ([(none, [0, 1]), (some 1, [0, 1]), (some 0, [0])] : EvalCache 2) (some 0)
        = some l2 ∧
      l1 = g.filter (fun x => decide (x ∈ PostOrderTraversal netA [1])) ∧
      l2 = g.filter (fun x => decide (x ∈ PostOrderTraversal netA [0])) ∧
      (∀ x, x ∈ PostOrderTraversal netA [1] ↔ Reaches netA 1 x) ∧
      (∀ x, x ∈ PostOrderTraversal netA [0] ↔ Reaches netA 0 x) ∧
      (1 : Fin 2) ∈ PostOrderTraversal netA [1] ∧
      l1.Sublist g ∧ l2.Sublist g ∧
      (∀ a b, a ∈ l1 → b ∈ l1 → a ∈ l2 → b ∈ l2 →
        ([a, b].Sublist l1 ↔ [a, b].Sublist l2))) := by
  have h1 : FormEvalOrder netA ([] : EvalCache 2) none = .ok ([(none, [0, 1])], []) := by
    decide
  have h2 : FormEvalOrder netA [(none, [0, 1])] (some 1)
      = .ok ([(none, [0, 1]), (some 1, [0, 1])], []) := by decide
  have h3 : FormEvalOrder netA [(none, [0, 1]), (some 1, [0, 1])] (some 0)
      = .ok ([(none, [0, 1]), (some 1, [0, 1]), (some 0, [0])], []) := by decide
  exact ⟨h1, h2, h3,
    formEvalOrder_root_subsequence_of_global netA _ _ _ _ 1 0 _ _ _ h1 h2 h3⟩

/-- Claim C6: calling `FormEvalOrder` a second time for a root that already
has a cached order succeeds (non-fatal), surfaces a warning diagnostic, and
the cached order for that root after the second call equals the one after the
first call. -/
theorem formEvalOrder_twice_idempotent (net : Net nn) (c0 c1 : EvalCache nn)
    (root : Option (Fin nn)) (w1 : List String)
    (h1 : FormEvalOrder net c0 root = .ok (c1, w1)) :
    ∃ c2 w2, FormEvalOrder net c1 root = .ok (c2, w2) ∧ w2 ≠ [] ∧
      lookupCache c2 root = lookupCache c1 root := by
  cases root with
  | none =>
    have hc1 := formEvalOrder_none_shape net c0 c1 w1 h1
    subst hc1
    refine ⟨insertCache (insertCache c0 none (PostOrderTraversal net net.allRoots)) none
        (PostOrderTraversal net net.allRoots),
      ["FormEvalOrder: WARNING: Was called twice."], ?_, by simp, ?_⟩
    · simp only [FormEvalOrder, lookupCache_insertCache_self]
    · simp only [lookupCache_insertCache_self]
  | some r =>
    obtain ⟨g, hg, hc1⟩ := formEvalOrder_some_shape net c0 c1 r w1 h1
    subst hc1
    have hgkeep : lookupCache (insertCache c0 (some r)
        (g.filter (fun x => decide (x ∈ PostOrderTraversal net [r])))) none = some g := by
      rw [lookupCache_insertCache_ne _ _ _ _ (by simp)]
      exact hg
    refine ⟨insertCache (insertCache c0 (some r)
          (g.filter (fun x => decide (x ∈ PostOrderTraversal net [r])))) (some r)
        (g.filter (fun x => decide (x ∈ PostOrderTraversal net [r]))),
      ["FormEvalOrder: WARNING: Was called twice for " ++ net.name r ++ " "
        ++ net.opName r ++ " operation."], ?_, by simp, ?_⟩
    · simp only [FormEvalOrder, GetEvalOrder, hgkeep, lookupCache_insertCache_self]
    · simp only [lookupCache_insertCache_self]

/-- Claim C6 witness: rebuilding the global order of `netA` warns and leaves
the cached global order unchanged. -/
theorem formEvalOrder_twice_idempotent_witness :
    FormEvalOrder netA ([] : EvalCache 2) none = .ok ([(none, [0, 1])], []) ∧
    ∃ c2 w2, FormEvalOrder netA [(none, [0, 1])] none = .ok (c2, w2) ∧ w2 ≠ [] ∧
      lookupCache c2 none = lookupCache ([(none, [0, 1])] : EvalCache 2) none := by
  have h1 : FormEvalOrder netA ([] : EvalCache 2) none = .ok ([(none, [0, 1])], []) := by
    decide
  exact ⟨h1, formEvalOrder_twice_idempotent netA [] [(none, [0, 1])] none [] h1⟩

/-- Claim C3 (amended): for every non-null root with no cached entry,
`GetEvalOrder` raises the fatal sequencing `LogicError` naming the missing
root and returns the cache unchanged.  (For the null root the source instead
dereferences the null pointer while formatting the message — see the
counterexample.) -/
theorem getEvalOrder_missing_root_error (net : Net nn) (cache : EvalCache nn)
    (r : Fin nn) (hmiss : lookupCache cache (some r) = none) :
    GetEvalOrder net cache (some r)
      = (.error (.logicError
          ("GetEvalOrder: Called without prior call to FormEvalOrder() for "
            ++ net.name r ++ " " ++ net.opName r ++ " operation")), cache) := by
  simp [GetEvalOrder, hmiss]

/-- Claim C3 witness: requesting the never-built order for root 1 of `netA`
raises the sequencing error naming node `b` and leaves the (empty) cache
unchanged. -/
theorem getEvalOrder_missing_root_error_witness :
    lookupCache ([] : EvalCache 2) (some 1) = none ∧
    GetEvalOrder netA ([] : EvalCache 2) (some 1)
      = (.error (.logicError
          ("GetEvalOrder: Called without prior call to FormEvalOrder() for "
            ++ netA.name 1 ++ " " ++ netA.opName 1 ++ " operation")), []) :=
  ⟨rfl, getEvalOrder_missing_root_error netA [] 1 rfl⟩

/-- Claim C3 counterexample: requesting the never-built order for the null
root does not raise the sequencing error identifying the missing root — the
source dereferences the null root pointer while formatting the message
(modelled as `Err.nullDeref`, which is no `LogicError`). -/
theorem getEvalOrder_null_root_counterexample :
    GetEvalOrder netA ([] : EvalCache 2) none = (.error .nullDeref, []) := by decide

/-- Claim C4 (amended): for every node subset whose size is not one, or all of
whose members occur in the global order, `SortByGlobalEvalOrder` returns the
global order filtered to the subset members (preserving the global relative
order). -/
theorem sortByGlobalEvalOrder_filters_global (net : Net nn) (cache : EvalCache nn)
    {g : List (Fin nn)} (hg : lookupCache cache none = some g) (hnd : g.Nodup)
    (ns : List (Fin nn)) (h : ns.length ≠ 1 ∨ ∀ x ∈ ns, x ∈ g) :
    SortByGlobalEvalOrder net cache ns = .ok (g.filter (fun x => decide (x ∈ ns))) := by
  rcases h with h | h
  · simp [SortByGlobalEvalOrder, h, GetEvalOrder, hg]
  · exact sortByGlobalEvalOrder_eq_filter net cache hg hnd ns h

/-- Claim C4 witness: sorting the subset `[1, 0]` of `netA` against the built
global order `[0, 1]` returns the filter of the global order. -/
theorem sortByGlobalEvalOrder_filters_global_witness :
    lookupCache cacheA none = some [0, 1] ∧ ([0, 1] : List (Fin 2)).Nodup ∧
    SortByGlobalEvalOrder netA cacheA [1, 0]
      = .ok (([0, 1] : List (Fin 2)).filter
          (fun x => decide (x ∈ ([1, 0] : List (Fin 2))))) :=
  ⟨by decide, by decide,
    sortByGlobalEvalOrder_filters_global netA cacheA (by decide) (by decide) [1, 0]
      (Or.inl (by decide))⟩

/-- Claim C4 counterexample: with the global order of `netB` built (it is
`[0]`), sorting the singleton subset `[1]` — whose node does not occur in the
global order — returns `[1]`, not the filter of the global order (which is
empty); so the result is not the global order filtered to the subset. -/
theorem sortByGlobalEvalOrder_counterexample :
    FormEvalOrder netB ([] : EvalCache 2) none = .ok ([(none, [0])], []) ∧
    SortByGlobalEvalOrder netB [(none, [0])] [1] = .ok [1] ∧
    lookupCache ([(none, [0])] : EvalCache 2) none = some [0] ∧
    ([0] : List (Fin 2)).filter (fun x => decide (x ∈ ([1] : List (Fin 2)))) = [] ∧
    (Except.ok [1] : Except Err (List (Fin 2))) ≠ .ok [] := by decide

/-- Claim C9: a one-element subset is returned unconditionally, whatever the
cache holds (the global order is not consulted, so this succeeds even when the
subset member is absent from the global order or no global order was ever
built); for any other size the global order is filtered to the subset, so
nodes absent from the global order are silently dropped. -/
theorem sortByGlobalEvalOrder_singleton_bypass (net : Net nn) :
    (∀ (cache : EvalCache nn) (ns : List (Fin nn)), ns.length = 1 →
      SortByGlobalEvalOrder net cache ns = .ok ns) ∧
    (∀ (cache : EvalCache nn) (ns g : List (Fin nn)),
      ns.length ≠ 1 → lookupCache cache none = some g →
      SortByGlobalEvalOrder net cache ns = .ok (g.filter (fun x => decide (x ∈ ns))) ∧
      ∀ x ∈ ns, x ∉ g → x ∉ g.filter (fun y => decide (y ∈ ns))) := by
  constructor
  · intro cache ns h
    simp [SortByGlobalEvalOrder, h]
  · intro cache ns g h hg
    refine ⟨by simp [SortByGlobalEvalOrder, h, GetEvalOrder, hg], ?_⟩
    intro x hx hxg hmem
    exact hxg (List.mem_of_mem_filter hmem)

/-- Claim C9 witness: the singleton `[1]` is returned as-is by `netB` both
with an empty cache (global order never built) and with the built global
order `[0]` that does not contain node 1; the pair `[1, 0]` filtered against
the global order drops node 1. -/
theorem sortByGlobalEvalOrder_singleton_bypass_witness :
    SortByGlobalEvalOrder netB ([] : EvalCache 2) [1] = .ok [1] ∧
    SortByGlobalEvalOrder netB [(none, [0])] [1] = .ok [1] ∧
    (SortByGlobalEvalOrder netB [(none, [0])] [1, 0]
        = .ok (([0] : List (Fin 2)).filter
            (fun x => decide (x ∈ ([1, 0] : List (Fin 2))))) ∧
      ∀ x ∈ ([1, 0] : List (Fin 2)), x ∉ ([0] : List (Fin 2)) →
        x ∉ ([0] : List (Fin 2)).filter (fun y => decide (y ∈ ([1, 0] : List (Fin 2))))) :=
  ⟨(sortByGlobalEvalOrder_singleton_bypass netB).1 [] [1] (by decide),
   (sortByGlobalEvalOrder_singleton_bypass netB).1 [(none, [0])] [1] (by decide),
   (sortByGlobalEvalOrder_singleton_bypass netB).2 [(none, [0])] [1, 0] [0]
     (by decide) (by decide)⟩

/-- Claim C7: `BackpropTo` on either flow-control unit variant (SEQ and PAR)
fails with a fatal error for every input index and frame; it never returns
successfully as a no-op. -/
theorem backpropTo_flow_control_not_implemented :
    (∀ (inputIndex : Nat) (fr : FrameRange),
      SEQTraversalFlowControlNode.BackpropTo inputIndex fr
        = .error (.logicError "SEQTraversalFlowControlNode::BackpropTo: NOT_IMPLEMENTED") ∧
      SEQTraversalFlowControlNode.BackpropTo inputIndex fr ≠ .ok ()) ∧
    (∀ (inputIndex : Nat) (fr : FrameRange),
      PARTraversalFlowControlNode.BackpropTo inputIndex fr
        = .error (.logicError "PARTraversalFlowControlNode::BackpropTo: NOT_IMPLEMENTED") ∧
      PARTraversalFlowControlNode.BackpropTo inputIndex fr ≠ .ok ()) :=
  ⟨fun i fr => ⟨rfl, by simp [SEQTraversalFlowControlNode.BackpropTo]⟩,
   fun i fr => ⟨rfl, by simp [PARTraversalFlowControlNode.BackpropTo]⟩⟩

/-- Claim C8: `AddNodeToNet` rejects a node whose name is already registered
(the map compares names case-insensitively) with a fatal `RuntimeError` naming
the offending node, leaving the node map unchanged; a fresh name is inserted
and the node is returned. -/
theorem addNodeToNet_spec (m : NodeMap) (node : NodeObj) :
    (containsName m node.name = true →
      AddNodeToNet m node
        = (.error (.runtimeError ("AddNodeToNet: Duplicated name for " ++ node.name
            ++ " " ++ node.opName ++ " operation.")), m)) ∧
    (containsName m node.name = false →
      AddNodeToNet m node = (.ok node, m ++ [(node.name, node)])) := by
  constructor
  · intro h
    simp [AddNodeToNet, h]
  · intro h
    simp [AddNodeToNet, h]

/-- Claim C8 witness: adding `nodeX2` (named `X`) to a map already holding
`nodeX` (named `x`) fails and leaves the map unchanged; adding `nodeX` to the
empty map inserts it and returns it. -/
theorem addNodeToNet_spec_witness :
    (containsName [("x", nodeX)] nodeX2.name = true ∧
      AddNodeToNet [("x", nodeX)] nodeX2
        = (.error (.runtimeError ("AddNodeToNet: Duplicated name for " ++ nodeX2.name
            ++ " " ++ nodeX2.opName ++ " operation.")), [("x", nodeX)])) ∧
    (containsName [] nodeX.name = false ∧
      AddNodeToNet [] nodeX = (.ok nodeX, [(nodeX.name, nodeX)])) :=
  ⟨⟨by decide, (addNodeToNet_spec [("x", nodeX)] nodeX2).1 (by decide)⟩,
   ⟨by decide, (addNodeToNet_spec [] nodeX).2 (by decide)⟩⟩

/-- Claim C10: `RemoveFromNodeGroup` returns false and leaves the groups and
the node unchanged when the node does not carry the tag; raises a fatal
`LogicError` when the node carries the tag but is absent from the group's
list; and otherwise removes the node from the group and returns true. -/
theorem removeFromNodeGroup_spec (gs : NodeGroups) (tag : String) (node : TaggedNode)
    (grp : List Nat) (hgrp : GetNodeGroup gs tag = .ok grp) :
    (tag ∉ node.tags → RemoveFromNodeGroup gs tag node = .ok (false, gs, node)) ∧
    (tag ∈ node.tags → node.uid ∉ grp →
      RemoveFromNodeGroup gs tag node
        = .error (.logicError ("RemoveFromNodeGroup: " ++ node.name ++ " " ++ node.opName
            ++ " operation not found in its node group " ++ tag ++ "."))) ∧
    (tag ∈ node.tags → node.uid ∈ grp →
      RemoveFromNodeGroup gs tag node
        = .ok (true, SetNodeGroup gs tag (grp.erase node.uid),
            { node with tags := node.tags.erase tag })) := by
  refine ⟨?_, ?_, ?_⟩
  · intro h
    have h' : decide (tag ∈ node.tags) = false := decide_eq_false h
    simp [RemoveFromNodeGroup, ClearTag, h', List.erase_of_not_mem h]
  · intro h hnot
    have h' : decide (tag ∈ node.tags) = true := decide_eq_true h
    simp [RemoveFromNodeGroup, ClearTag, h', hgrp, hnot]
  · intro h hmem
    have h' : decide (tag ∈ node.tags) = true := decide_eq_true h
    simp [RemoveFromNodeGroup, ClearTag, h', hgrp, hmem]

/-- Claim C10 witness: on the `feature` group `[7]` — an untagged node returns
false and changes nothing; a tagged node missing from the group raises the
logic error; the tagged member 7 is removed and true is returned. -/
theorem removeFromNodeGroup_spec_witness :
    RemoveFromNodeGroup gsA "feature" taggedNone = .ok (false, gsA, taggedNone) ∧
    RemoveFromNodeGroup gsA "feature" taggedGhost
      = .error (.logicError ("RemoveFromNodeGroup: " ++ taggedGhost.name ++ " "
          ++ taggedGhost.opName ++ " operation not found in its node group "
          ++ "feature" ++ ".")) ∧
    RemoveFromNodeGroup gsA "feature" taggedF
      = .ok (true, SetNodeGroup gsA "feature" (gsA.featureNodes.erase taggedF.uid),
          { taggedF with tags := taggedF.tags.erase "feature" }) :=
  ⟨(removeFromNodeGroup_spec gsA "feature" taggedNone gsA.featureNodes rfl).1 (by decide),
   (removeFromNodeGroup_spec gsA "feature" taggedGhost gsA.featureNodes rfl).2.1
     (by decide) (by decide),
   (removeFromNodeGroup_spec gsA "feature" taggedF gsA.featureNodes rfl).2.2
     (by decide) (by decide)⟩

/-! ### Lemmas about the loop-collapsing traversal (claim C2) -/

theorem collapseStep_cases (net : Net nn)
    (acc : List (SEQLoop nn) × List (TraversalEntry nn)) (x : Fin nn) :
    (net.isPartOfLoop x = true ∧ ∃ l, FindInRecurrentLoops net.seqLoops x = some l ∧
      ((l ∈ acc.1 ∧ collapseStep net acc x = acc) ∨
       (l ∉ acc.1 ∧ collapseStep net acc x = (l :: acc.1, acc.2 ++ [TraversalEntry.seq l])))) ∨
    (net.isPartOfLoop x = true ∧ FindInRecurrentLoops net.seqLoops x = none ∧
      collapseStep net acc x = acc) ∨
    (net.isPartOfLoop x = false ∧
      collapseStep net acc x = (acc.1, acc.2 ++ [TraversalEntry.node x])) := by
  by_cases hl : net.isPartOfLoop x = true
  · cases hf : FindInRecurrentLoops net.seqLoops x with
    | none => exact Or.inr (Or.inl ⟨hl, rfl, by simp [collapseStep, hl, hf]⟩)
    | some l0 =>
      by_cases hc : l0 ∈ acc.1
      · exact Or.inl ⟨hl, l0, rfl, Or.inl ⟨hc, by simp [collapseStep, hl, hf, hc]⟩⟩
      · exact Or.inl ⟨hl, l0, rfl, Or.inr ⟨hc, by simp [collapseStep, hl, hf, hc]⟩⟩
  · have hl' : net.isPartOfLoop x = false := by
      cases h : net.isPartOfLoop x
      · rfl
      · exact absurd h hl
    exact Or.inr (Or.inr ⟨hl', by simp [collapseStep, hl']⟩)

theorem collapseStep_out_mono (net : Net nn)
    (acc : List (SEQLoop nn) × List (TraversalEntry nn)) (x : Fin nn)
    (e : TraversalEntry nn) (h : e ∈ acc.2) : e ∈ (collapseStep net acc x).2 := by
  rcases collapseStep_cases net acc x with ⟨_, l0, _, hcase⟩ | ⟨_, _, heq⟩ | ⟨_, heq⟩
  · rcases hcase with ⟨_, heq⟩ | ⟨_, heq⟩
    · rw [heq]; exact h
    · rw [heq]; exact List.mem_append_left _ h
  · rw [heq]; exact h
  · rw [heq]; exact List.mem_append_left _ h

theorem collapse_out_mono (net : Net nn) :
    ∀ (l : List (Fin nn)) (acc : List (SEQLoop nn) × List (TraversalEntry nn))
      (e : TraversalEntry nn), e ∈ acc.2 → e ∈ (l.foldl (collapseStep net) acc).2
  | [], acc, e => id
  | x :: rest, acc, e => fun h =>
    collapse_out_mono net rest _ e (collapseStep_out_mono net acc x e h)

theorem collapseStep_preserves (net : Net nn)
    (acc : List (SEQLoop nn) × List (TraversalEntry nn)) (x : Fin nn)
    (hP1 : ∀ y, TraversalEntry.node y ∈ acc.2 → net.isPartOfLoop y = false)
    (hP3 : ∀ lp, TraversalEntry.seq lp ∈ acc.2 → lp ∈ acc.1)
    (hP4 : ∀ lp ∈ acc.1, TraversalEntry.seq lp ∈ acc.2)
    (hP2 : ∀ lp, acc.2.count (TraversalEntry.seq lp) ≤ 1) :
    (∀ y, TraversalEntry.node y ∈ (collapseStep net acc x).2 →
      net.isPartOfLoop y = false) ∧
    (∀ lp, TraversalEntry.seq lp ∈ (collapseStep net acc x).2 →
      lp ∈ (collapseStep net acc x).1) ∧
    (∀ lp ∈ (collapseStep net acc x).1, TraversalEntry.seq lp ∈ (collapseStep net acc x).2) ∧
    (∀ lp, (collapseStep net acc x).2.count (TraversalEntry.seq lp) ≤ 1) := by
  rcases collapseStep_cases net acc x with ⟨hflag, l0, hfind, hcase⟩ | ⟨_, _, heq⟩ | ⟨hflag, heq⟩
  · rcases hcase with ⟨hc, heq⟩ | ⟨hc, heq⟩
    · rw [heq]; exact ⟨hP1, hP3, hP4, hP2⟩
    · rw [heq]
      refine ⟨?_, ?_, ?_, ?_⟩
      · intro y hy
        rcases List.mem_append.mp hy with h | h
        · exact hP1 y h
        · simp at h
      · intro lp hlp
        rcases List.mem_append.mp hlp with h | h
        · exact List.mem_cons_of_mem _ (hP3 lp h)
        · simp only [List.mem_singleton, TraversalEntry.seq.injEq] at h
          exact h ▸ List.mem_cons_self _ _
      · intro lp hlp
        rcases List.mem_cons.mp hlp with h | h
        · subst h
          exact List.mem_append_right _ (List.mem_singleton_self _)
        · exact List.mem_append_left _ (hP4 lp h)
      · intro lp
        rw [List.count_append]
        by_cases hlp : lp = l0
        · subst hlp
          have hzero : acc.2.count (TraversalEntry.seq lp) = 0 := by
            rw [List.count_eq_zero]
            intro hmem
            exact hc (hP3 lp hmem)
          simp [hzero, List.count_cons]
        · have hone : List.count (TraversalEntry.seq lp) [TraversalEntry.seq l0] = 0 := by
            simp [List.count_cons, hlp]
          have := hP2 lp
          omega
  · rw [heq]; exact ⟨hP1, hP3, hP4, hP2⟩
  · rw [heq]
    refine ⟨?_, ?_, ?_, ?_⟩
    · intro y hy
      rcases List.mem_append.mp hy with h | h
      · exact hP1 y h
      · simp only [List.mem_singleton, TraversalEntry.node.injEq] at h
        exact h ▸ hflag
    · intro lp hlp
      rcases List.mem_append.mp hlp with h | h
      · exact hP3 lp h
      · simp at h
    · intro lp hlp
      exact List.mem_append_left _ (hP4 lp hlp)
    · intro lp
      rw [List.count_append]
      have hone : List.count (TraversalEntry.seq lp) [TraversalEntry.node x] = 0 := by
        simp [List.count_cons]
      have := hP2 lp
      omega

theorem findInRecurrentLoops_some (loops : List (SEQLoop nn)) (x : Fin nn)
    (h : ∃ l ∈ loops, x ∈ l.members) :
    ∃ lx, FindInRecurrentLoops loops x = some lx ∧ x ∈ lx.members := by
  induction loops with
  | nil =>
    rcases h with ⟨l, hl, _⟩
    exact absurd hl (List.not_mem_nil _)
  | cons l0 rest ih =>
    by_cases hx : x ∈ l0.members
    · refine ⟨l0, ?_, hx⟩
      simp only [FindInRecurrentLoops]
      rw [List.find?_cons_of_pos]
      simp [hx]
    · rcases h with ⟨l, hl, hxl⟩
      rcases List.mem_cons.mp hl with h' | hl'
      · exact absurd (h' ▸ hxl) hx
      · obtain ⟨lx, hfind, hmem⟩ := ih ⟨l, hl', hxl⟩
        refine ⟨lx, ?_, hmem⟩
        simp only [FindInRecurrentLoops] at hfind ⊢
        rw [List.find?_cons_of_neg]
        · exact hfind
        · simp [hx]

theorem collapse_foldl_inv (net : Net nn) :
    ∀ (l : List (Fin nn)) (acc : List (SEQLoop nn) × List (TraversalEntry nn)),
      (∀ y, TraversalEntry.node y ∈ acc.2 → net.isPartOfLoop y = false) →
      (∀ lp, TraversalEntry.seq lp ∈ acc.2 → lp ∈ acc.1) →
      (∀ lp ∈ acc.1, TraversalEntry.seq lp ∈ acc.2) →
      (∀ lp, acc.2.count (TraversalEntry.seq lp) ≤ 1) →
      (∀ y, TraversalEntry.node y ∈ (l.foldl (collapseStep net) acc).2 →
        net.isPartOfLoop y = false) ∧
      (∀ lp, (l.foldl (collapseStep net) acc).2.count (TraversalEntry.seq lp) ≤ 1)
  | [], acc => fun hP1 _ _ hP2 => ⟨hP1, hP2⟩
  | x :: rest, acc => by
    intro hP1 hP3 hP4 hP2
    obtain ⟨hP1', hP3', hP4', hP2'⟩ := collapseStep_preserves net acc x hP1 hP3 hP4 hP2
    exact collapse_foldl_inv net rest _ hP1' hP3' hP4' hP2'

theorem collapse_foldl_complete (net : Net nn)
    (hWF : ∀ x : Fin nn, net.isPartOfLoop x = true → ∃ l ∈ net.seqLoops, x ∈ l.members) :
    ∀ (l : List (Fin nn)) (acc : List (SEQLoop nn) × List (TraversalEntry nn)),
      (∀ y, TraversalEntry.node y ∈ acc.2 → net.isPartOfLoop y = false) →
      (∀ lp, TraversalEntry.seq lp ∈ acc.2 → lp ∈ acc.1) →
      (∀ lp ∈ acc.1, TraversalEntry.seq lp ∈ acc.2) →
      (∀ lp, acc.2.count (TraversalEntry.seq lp) ≤ 1) →
      ∀ x ∈ l, net.isPartOfLoop x = true →
        ∃ lx, FindInRecurrentLoops net.seqLoops x = some lx ∧ x ∈ lx.members ∧
          TraversalEntry.seq lx ∈ (l.foldl (collapseStep net) acc).2
  | [], acc => by
    intro _ _ _ _ x hx
    exact absurd hx (List.not_mem_nil _)
  | x0 :: rest, acc => by
    intro hP1 hP3 hP4 hP2 x hx hflag
    obtain ⟨hP1', hP3', hP4', hP2'⟩ := collapseStep_preserves net acc x0 hP1 hP3 hP4 hP2
    rcases List.mem_cons.mp hx with rfl | hx'
    · obtain ⟨lx, hfind, hmem⟩ := findInRecurrentLoops_some net.seqLoops x (hWF x hflag)
      refine ⟨lx, hfind, hmem, ?_⟩
      have hstep : TraversalEntry.seq lx ∈ (collapseStep net acc x).2 := by
        rcases collapseStep_cases net acc x with ⟨_, l0, hfind', hcase⟩ | ⟨_, hfind', _⟩
          | ⟨hflag', _⟩
        · have hl0 : l0 = lx := by
            rw [hfind'] at hfind
            exact (Option.some.inj hfind)
          subst hl0
          rcases hcase with ⟨hc, heq⟩ | ⟨hc, heq⟩
          · rw [heq]
            exact hP4 l0 hc
          · rw [heq]
            exact List.mem_append_right _ (List.mem_singleton_self _)
        · rw [hfind'] at hfind
          exact absurd hfind (by simp)
        · rw [hflag'] at hflag
          exact absurd hflag (by simp)
      exact collapse_out_mono net rest _ _ hstep
    · exact collapse_foldl_complete net hWF rest _ hP1' hP3' hP4' hP2' x hx' hflag

/-- Claim C2: any successful `TravserseInSortedGlobalEvalOrder` call passes no
loop-member node to the action individually, passes each loop's SEQ
flow-control unit at most once (even when several requested roots alias into
the same loop), and replaces every loop-member node of the sorted combined
order by its loop's SEQ unit, which does reach the action. -/
theorem travserse_collapses_loops (net : Net nn) (cache : EvalCache nn)
    (nodes : List (Fin nn)) (out : List (TraversalEntry nn))
    (hWF : ∀ x : Fin nn, net.isPartOfLoop x = true ↔ ∃ l ∈ net.seqLoops, x ∈ l.members)
    (htrav : TravserseInSortedGlobalEvalOrder net cache nodes = .ok out) :
    (∀ x : Fin nn, TraversalEntry.node x ∈ out → net.isPartOfLoop x = false) ∧
    (∀ l : SEQLoop nn, out.count (TraversalEntry.seq l) ≤ 1) ∧
    (∃ sorted : List (Fin nn), out = collapseLoopNodes net sorted ∧
      ∀ x ∈ sorted, net.isPartOfLoop x = true →
        ∃ l, FindInRecurrentLoops net.seqLoops x = some l ∧ x ∈ l.members ∧
          TraversalEntry.seq l ∈ out) := by
  cases hcomb : combineEvalOrders net cache nodes with
  | error e =>
    simp only [TravserseInSortedGlobalEvalOrder, hcomb] at htrav
    exact Except.noConfusion htrav
  | ok combined =>
    cases hsort : SortByGlobalEvalOrder net cache combined with
    | error e =>
      simp only [TravserseInSortedGlobalEvalOrder, hcomb, hsort] at htrav
      exact Except.noConfusion htrav
    | ok sorted =>
      simp only [TravserseInSortedGlobalEvalOrder, hcomb, hsort] at htrav
      have hout : out = collapseLoopNodes net sorted := (Except.ok.inj htrav).symm
      subst hout
      have hinv := collapse_foldl_inv net sorted ([], [])
        (by intro y hy; simp at hy) (by intro lp hlp; simp at hlp)
        (by intro lp hlp; simp at hlp) (by intro lp; simp)
      refine ⟨hinv.1, hinv.2, sorted, rfl, ?_⟩
      intro x hx hflag
      exact collapse_foldl_complete net (fun y hy => (hWF y).mp hy) sorted ([], [])
        (by intro y hy; simp at hy) (by intro lp hlp; simp at hlp)
        (by intro lp hlp; simp at hlp) (by intro lp; simp) x hx hflag

/-- Claim C2 witness: in `netLoop` the requested roots 1 and 2 produce the
entry list `[SEQ unit of loopA, node 2]` — the two loop members 0 and 1 are
replaced by a single SEQ unit and node 2 stays a plain entry. -/
theorem travserse_collapses_loops_witness :
    (∀ x : Fin 3, netLoop.isPartOfLoop x = true ↔ ∃ l ∈ netLoop.seqLoops, x ∈ l.members) ∧
    TravserseInSortedGlobalEvalOrder netLoop cacheLoop [1, 2]
      = .ok [TraversalEntry.seq loopA, TraversalEntry.node 2] ∧
    ((∀ x : Fin 3,
        TraversalEntry.node x ∈ [TraversalEntry.seq loopA, TraversalEntry.node 2] →
          netLoop.isPartOfLoop x = false) ∧
      (∀ l : SEQLoop 3,
        List.count (TraversalEntry.seq l) [TraversalEntry.seq loopA, TraversalEntry.node 2]
          ≤ 1) ∧
      (∃ sorted : List (Fin 3),
        [TraversalEntry.seq loopA, TraversalEntry.node 2] = collapseLoopNodes netLoop sorted ∧
        ∀ x ∈ sorted, netLoop.isPartOfLoop x = true →
          ∃ l, FindInRecurrentLoops netLoop.seqLoops x = some l ∧ x ∈ l.members ∧
            TraversalEntry.seq l ∈ [TraversalEntry.seq loopA, TraversalEntry.node 2])) := by
  have hWF : ∀ x : Fin 3,
      netLoop.isPartOfLoop x = true ↔ ∃ l ∈ netLoop.seqLoops, x ∈ l.members := by decide
  have htrav : TravserseInSortedGlobalEvalOrder netLoop cacheLoop [1, 2]
      = .ok [TraversalEntry.seq loopA, TraversalEntry.node 2] := by decide
  exact ⟨hWF, htrav, travserse_collapses_loops netLoop cacheLoop [1, 2] _ hWF htrav⟩

/-! ### Lemmas about ForwardPropFromTo (claim C5) -/

theorem FromToNeeded.mem {net : Net nn} {T F : List (Fin nn)} {y : Fin nn}
    (h : FromToNeeded net T F y) : y ∈ T := by
  cases h with
  | base x c hx hc hF => exact hx
  | step x c hx hc hN => exact hx

theorem collapse_no_loops_aux (net : Net nn) (h : ∀ x, net.isPartOfLoop x = false) :
    ∀ (l : List (Fin nn)) (completed : List (SEQLoop nn)) (out : List (TraversalEntry nn)),
      (l.foldl (collapseStep net) (completed, out)).2 = out ++ l.map TraversalEntry.node
  | [], completed, out => by simp
  | x :: rest, completed, out => by
    have hstep : collapseStep net (completed, out) x
        = (completed, out ++ [TraversalEntry.node x]) := by
      simp [collapseStep, h x]
    simp only [List.foldl_cons, hstep, List.map_cons]
    rw [collapse_no_loops_aux net h rest completed (out ++ [TraversalEntry.node x])]
    simp

theorem collapseLoopNodes_no_loops (net : Net nn) (h : ∀ x, net.isPartOfLoop x = false)
    (l : List (Fin nn)) : collapseLoopNodes net l = l.map TraversalEntry.node := by
  simp [collapseLoopNodes, collapse_no_loops_aux net h l [] []]

theorem pair_sublist_mem_left {c x : Fin nn} :
    ∀ (done todo : List (Fin nn)), (done ++ x :: todo).Nodup →
      [c, x].Sublist (done ++ x :: todo) → c ∈ done
  | [], todo => by
    intro hnd hsub
    exfalso
    rw [List.nil_append] at hnd hsub
    have hxnot : x ∉ todo := (List.nodup_cons.mp hnd).1
    cases hsub with
    | cons a h => exact hxnot (h.subset (by simp))
    | cons₂ a h => exact hxnot (h.subset (by simp))
  | d :: done, todo => by
    intro hnd hsub
    rw [List.cons_append] at hnd hsub
    cases hsub with
    | cons a h =>
      exact List.mem_cons_of_mem d (pair_sublist_mem_left done todo (List.Nodup.of_cons hnd) h)
    | cons₂ a h => exact List.mem_cons_self _ _

theorem combineEvalOrders_of_cached (net : Net nn) (cache : EvalCache nn)
    {g : List (Fin nn)} :
    ∀ (nodesTo : List (Fin nn)),
      (∀ t ∈ nodesTo, lookupCache cache (some t)
        = some (g.filter (fun x => decide (x ∈ PostOrderTraversal net [t])))) →
      ∃ combined, combineEvalOrders net cache nodesTo = .ok combined ∧
        (∀ x, x ∈ combined ↔ x ∈ g ∧ ∃ t ∈ nodesTo, Reaches net t x) ∧
        (∀ x ∈ combined, x ∈ g)
  | [], _ => ⟨[], rfl, by simp, by simp⟩
  | t :: rest, ht => by
    obtain ⟨cr, hcr, hmem, hing⟩ := combineEvalOrders_of_cached net cache rest
      (fun t' ht' => ht t' (List.mem_cons_of_mem _ ht'))
    refine ⟨g.filter (fun x => decide (x ∈ PostOrderTraversal net [t])) ++ cr, ?_, ?_, ?_⟩
    · simp only [combineEvalOrders, GetEvalOrder, ht t (List.mem_cons_self _ _), hcr]
    · intro x
      constructor
      · intro hx
        rcases List.mem_append.mp hx with h | h
        · have hxg := (List.mem_filter.mp h).1
          have hxr : x ∈ PostOrderTraversal net [t] :=
            of_decide_eq_true (List.mem_filter.mp h).2
          obtain ⟨r, hr, hreach⟩ := (mem_postOrderTraversal net [t] x).mp hxr
          have hrt : r = t := List.mem_singleton.mp hr
          exact ⟨hxg, t, List.mem_cons_self _ _, hrt ▸ hreach⟩
        · obtain ⟨hxg, t', ht', hreach⟩ := (hmem x).mp h
          exact ⟨hxg, t', List.mem_cons_of_mem _ ht', hreach⟩
      · rintro ⟨hxg, t', ht', hreach⟩
        rcases List.mem_cons.mp ht' with h' | h'
        · apply List.mem_append_left
          refine List.mem_filter.mpr ⟨hxg, decide_eq_true ?_⟩
          exact (mem_postOrderTraversal net [t] x).mpr
            ⟨t, List.mem_singleton_self _, h' ▸ hreach⟩
        · exact List.mem_append_right _ ((hmem x).mpr ⟨hxg, t', h', hreach⟩)
    · intro x hx
      rcases List.mem_append.mp hx with h | h
      · exact (List.mem_filter.mp h).1
      · exact hing x h

theorem sortEntriesByGlobalEvalOrder_eq (net : Net nn) (cache : EvalCache nn)
    {g : List (Fin nn)} (hg : lookupCache cache none = some g) (hnd : g.Nodup)
    (es : List (TraversalEntry nn))
    (hnodes : ∀ e ∈ es, ∃ y, e = TraversalEntry.node y ∧ y ∈ g) :
    SortEntriesByGlobalEvalOrder net cache es
      = .ok ((g.filter (fun x => decide (TraversalEntry.node x ∈ es))).map
          TraversalEntry.node) := by
  by_cases hlen : es.length = 1
  · obtain ⟨e, rfl⟩ : ∃ e, es = [e] := List.length_eq_one.mp hlen
    obtain ⟨y, rfl, hy⟩ := hnodes e (List.mem_singleton_self e)
    have hfilter : g.filter (fun x => decide (TraversalEntry.node x ∈ [TraversalEntry.node y]))
        = [y] := by
      have hpred : (fun x : Fin nn => decide (TraversalEntry.node x ∈ [TraversalEntry.node y]))
          = fun x : Fin nn => decide (x = y) := by
        funext x
        simp
      rw [hpred]
      exact filter_eq_singleton hnd hy
    rw [show SortEntriesByGlobalEvalOrder net cache [TraversalEntry.node y]
        = .ok [TraversalEntry.node y] from by simp [SortEntriesByGlobalEvalOrder]]
    rw [hfilter]
    simp
  · simp [SortEntriesByGlobalEvalOrder, hlen, GetEvalOrder, hg]

theorem fromTo_foldl_char (net : Net nn) (F T : List (Fin nn))
    (hnd : T.Nodup)
    (htopo : ∀ x ∈ T, ∀ c ∈ net.inputs x, c ∈ T → [c, x].Sublist T) :
    ∀ (todo done : List (Fin nn)) (acc : List (TraversalEntry nn)),
      T = done ++ todo →
      (∀ e ∈ acc, ∃ y, e = TraversalEntry.node y) →
      (∀ y, TraversalEntry.node y ∈ acc ↔ y ∈ done ∧ FromToNeeded net T F y) →
      (∀ e ∈ (todo.map TraversalEntry.node).foldl (fromToInsert net F) acc,
        ∃ y, e = TraversalEntry.node y) ∧
      (∀ y, TraversalEntry.node y ∈ (todo.map TraversalEntry.node).foldl (fromToInsert net F) acc
        ↔ y ∈ T ∧ FromToNeeded net T F y)
  | [], done, acc => by
    intro hT honly hchar
    have hdT : done = T := by rw [hT, List.append_nil]
    subst hdT
    exact ⟨honly, hchar⟩
  | x :: todo, done, acc => by
    intro hT honly hchar
    have hxT : x ∈ T := by
      rw [hT]
      exact List.mem_append_right _ (List.mem_cons_self _ _)
    have hxdone : x ∉ done := by
      have hndT := hnd
      rw [hT] at hndT
      have h2 := List.nodup_middle.mp hndT
      intro hc
      exact (List.nodup_cons.mp h2).1 (List.mem_append_left _ hc)
    have hxacc : TraversalEntry.node x ∉ acc := by
      intro hc
      exact hxdone ((hchar x).mp hc).1
    by_cases hb : ((net.inputs x).any
        (fun c => decide (c ∈ F) || decide (TraversalEntry.node c ∈ acc))) = true
    · have hNx : FromToNeeded net T F x := by
        obtain ⟨c, hc, hcc⟩ := List.any_eq_true.mp hb
        rcases Bool.or_eq_true_iff.mp hcc with hcF | hcacc
        · exact FromToNeeded.base x c hxT hc (of_decide_eq_true hcF)
        · exact FromToNeeded.step x c hxT hc ((hchar c).mp (of_decide_eq_true hcacc)).2
      have hstep : fromToInsert net F acc (TraversalEntry.node x)
          = acc ++ [TraversalEntry.node x] := by
        simp only [fromToInsert, entryInputs, hb, if_true]
        rw [if_neg hxacc]
      rw [List.map_cons, List.foldl_cons, hstep]
      apply fromTo_foldl_char net F T hnd htopo todo (done ++ [x])
        (acc ++ [TraversalEntry.node x]) (by rw [hT]; simp)
      · intro e he
        rcases List.mem_append.mp he with h | h
        · exact honly e h
        · exact ⟨x, List.mem_singleton.mp h⟩
      · intro y
        constructor
        · intro hy
          rcases List.mem_append.mp hy with h | h
          · obtain ⟨hyd, hN⟩ := (hchar y).mp h
            exact ⟨List.mem_append_left _ hyd, hN⟩
          · have hyx : y = x := by
              have := List.mem_singleton.mp h
              exact TraversalEntry.node.inj this
            subst hyx
            exact ⟨List.mem_append_right _ (List.mem_singleton_self _), hNx⟩
        · rintro ⟨hyd, hN⟩
          rcases List.mem_append.mp hyd with h | h
          · exact List.mem_append_left _ ((hchar y).mpr ⟨h, hN⟩)
          · have hyx : y = x := List.mem_singleton.mp h
            subst hyx
            exact List.mem_append_right _ (List.mem_singleton_self _)
    · have hNotNx : ¬ FromToNeeded net T F x := by
        intro hN
        apply hb
        cases hN with
        | base x c hx hc hF =>
          exact List.any_eq_true.mpr ⟨c, hc, by simp [hF]⟩
        | step x c hx hc hNc =>
          have hcT : c ∈ T := hNc.mem
          have hsub : [c, x].Sublist T := htopo x hxT c hc hcT
          have hcdone : c ∈ done := by
            apply pair_sublist_mem_left done todo
            · rw [hT] at hnd
              exact hnd
            · rw [hT] at hsub
              exact hsub
          have hcacc : TraversalEntry.node c ∈ acc := (hchar c).mpr ⟨hcdone, hNc⟩
          exact List.any_eq_true.mpr ⟨c, hc, by simp [hcacc]⟩
      have hstep : fromToInsert net F acc (TraversalEntry.node x) = acc := by
        simp only [fromToInsert, entryInputs]
        rw [if_neg]
        intro hc
        exact hb hc
      rw [List.map_cons, List.foldl_cons, hstep]
      apply fromTo_foldl_char net F T hnd htopo todo (done ++ [x]) acc
        (by rw [hT]; simp) honly
      intro y
      rw [hchar y]
      constructor
      · rintro ⟨hyd, hN⟩
        exact ⟨List.mem_append_left _ hyd, hN⟩
      · rintro ⟨hyd, hN⟩
        rcases List.mem_append.mp hyd with h | h
        · exact ⟨h, hN⟩
        · have hyx : y = x := List.mem_singleton.mp h
          subst hyx
          exact absurd hN hNotNx

/-- Claim C5 (amended): in a network without recurrent loops, with the global
order cached, duplicate-free, input-closed and topologically sorted, and the
targets' per-root orders cached as `FormEvalOrder` builds them,
`ForwardPropFromTo` invokes forward computation exactly on the least subset
`s` of the targets' dependency set `T` that contains every node one of whose
inputs lies in the frontier or in `s`, executed in global evaluation order;
every executed node — a frontier node included — has an input in the frontier
or in the executed set, so a frontier node is re-triggered exactly when one of
its inputs lies there.  (Both restrictions are forced by the counterexample:
its first part shows a frontier node being re-triggered, its second part
shows that with a recurrent loop the loop interior is not executed at all,
since the loop's SEQ flow-control unit has no inputs.) -/
theorem forwardPropFromTo_least_fixpoint (net : Net nn) (cache : EvalCache nn)
    (nodesFrom nodesTo : List (Fin nn)) (g : List (Fin nn))
    (hnl : ∀ x, net.isPartOfLoop x = false)
    (hg : lookupCache cache none = some g)
    (hnd : g.Nodup)
    (htopo : ∀ x ∈ g, ∀ c ∈ net.inputs x, c ∈ g ∧ [c, x].Sublist g)
    (ht : ∀ t ∈ nodesTo, lookupCache cache (some t)
      = some (g.filter (fun x => decide (x ∈ PostOrderTraversal net [t])))) :
    ∃ (T s : List (Fin nn)),
      (∀ x, x ∈ T ↔ x ∈ g ∧ ∃ t ∈ nodesTo, Reaches net t x) ∧
      (∀ y, y ∈ s ↔ FromToNeeded net T nodesFrom y) ∧
      ForwardPropFromTo net cache nodesFrom nodesTo
        = .ok ((g.filter (fun x => decide (x ∈ s))).map TraversalEntry.node) ∧
      (∀ y ∈ s, ∃ c ∈ net.inputs y, c ∈ nodesFrom ∨ c ∈ s) := by
  obtain ⟨combined, hcomb, hcmem, hcing⟩ :=
    combineEvalOrders_of_cached net cache nodesTo ht
  have hsort : SortByGlobalEvalOrder net cache combined
      = .ok (g.filter (fun x => decide (x ∈ combined))) :=
    sortByGlobalEvalOrder_eq_filter net cache hg hnd combined hcing
  set T := g.filter (fun x => decide (x ∈ combined)) with hTdef
  have hTmem : ∀ x, x ∈ T ↔ x ∈ g ∧ ∃ t ∈ nodesTo, Reaches net t x := by
    intro x
    rw [hTdef]
    constructor
    · intro hx
      exact (hcmem x).mp (of_decide_eq_true (List.mem_filter.mp hx).2)
    · intro hx
      exact List.mem_filter.mpr ⟨hx.1, decide_eq_true ((hcmem x).mpr hx)⟩
  have hTnd : T.Nodup := hnd.filter _
  have hTg : ∀ x ∈ T, x ∈ g := fun x hx => (List.mem_filter.mp hx).1
  have hTclosed : ∀ x ∈ T, ∀ c ∈ net.inputs x, c ∈ T := by
    intro x hx c hc
    obtain ⟨hxg, t, htt, hreach⟩ := (hTmem x).mp hx
    have hcg : c ∈ g := (htopo x hxg c hc).1
    exact (hTmem c).mpr ⟨hcg, t, htt, hreach.tail hc⟩
  have hTtopo : ∀ x ∈ T, ∀ c ∈ net.inputs x, c ∈ T → [c, x].Sublist T := by
    intro x hx c hc hcT
    have hsubg : [c, x].Sublist g := (htopo x (hTg x hx) c hc).2
    rw [hTdef]
    exact pair_sublist_filter (List.mem_filter.mp hcT).2 (List.mem_filter.mp hx).2 hsubg
  have htrav : TravserseInSortedGlobalEvalOrder net cache nodesTo
      = .ok (T.map TraversalEntry.node) := by
    simp only [TravserseInSortedGlobalEvalOrder, hcomb, hsort,
      collapseLoopNodes_no_loops net hnl]
  obtain ⟨honly, hchar⟩ := fromTo_foldl_char net nodesFrom T hTnd hTtopo T [] []
    (by simp) (by simp) (by simp)
  set sEntries := (T.map TraversalEntry.node).foldl (fromToInsert net nodesFrom) []
    with hsdef
  set s := T.filter (fun y => decide (TraversalEntry.node y ∈ sEntries)) with hsdef2
  have hsmem : ∀ y, y ∈ s ↔ FromToNeeded net T nodesFrom y := by
    intro y
    rw [hsdef2]
    constructor
    · intro hy
      exact ((hchar y).mp (of_decide_eq_true (List.mem_filter.mp hy).2)).2
    · intro hN
      refine List.mem_filter.mpr ⟨hN.mem, decide_eq_true ?_⟩
      exact (hchar y).mpr ⟨hN.mem, hN⟩
  refine ⟨T, s, hTmem, hsmem, ?_, ?_⟩
  · have hfinal : ForwardPropFromTo net cache nodesFrom nodesTo
        = SortEntriesByGlobalEvalOrder net cache sEntries := by
      simp only [ForwardPropFromTo, htrav, hsdef]
    rw [hfinal]
    rw [sortEntriesByGlobalEvalOrder_eq net cache hg hnd sEntries ?hnodes]
    case hnodes =>
      intro e he
      obtain ⟨y, rfl⟩ := honly e he
      exact ⟨y, rfl, hTg y ((hchar y).mp he).1⟩
    have hcongr : g.filter (fun x => decide (TraversalEntry.node x ∈ sEntries))
        = g.filter (fun x => decide (x ∈ s)) := by
      apply List.filter_congr
      intro x hx
      apply decide_eq_decide.mpr
      constructor
      · intro hmem
        exact (hsmem x).mpr ((hchar x).mp hmem).2
      · intro hmem
        have hN := (hsmem x).mp hmem
        exact (hchar x).mpr ⟨hN.mem, hN⟩
    rw [hcongr]
  · intro y hy
    have hN := (hsmem y).mp hy
    cases hN with
    | base x c hx hc hF => exact ⟨c, hc, Or.inl hF⟩
    | step x c hx hc hNc => exact ⟨c, hc, Or.inr ((hsmem c).mpr hNc)⟩

/-- Claim C5 counterexample.  Part one: with frontier `{0, 1}` (both assumed
already computed) and target node 1, `ForwardPropFromTo` on `netA` invokes
forward computation on node 1 even though node 1 is itself a frontier node
(its input 0 lies in the frontier) — compute is re-triggered on a frontier
node.  Part two: in `netLoopChain` the recurrent loop `{1, 2}` sits between
frontier node 0 and target node 3, and every node of the target's dependency
chain is reachable from the frontier through chains of inputs (0 is an input
of 1, 1 of 2, 2 of 3, and 1 lies in the target's dependency set), yet the
executed list is empty: the loop members are replaced by their SEQ
flow-control unit, which has no attached inputs, so the insertion test never
fires and the loop interior downstream of the frontier is not executed — the
executed subset is not the claimed minimal reachable subset. -/
theorem forwardPropFromTo_frontier_counterexample :
    (ForwardPropFromTo netA cacheA [0, 1] [1] = .ok [TraversalEntry.node 1] ∧
      (1 : Fin 2) ∈ ([0, 1] : List (Fin 2))) ∧
    (FormEvalOrder netLoopChain ([] : EvalCache 4) none
        = .ok ([(none, [0, 1, 2, 3])], []) ∧
      FormEvalOrder netLoopChain [(none, [0, 1, 2, 3])] (some 3)
        = .ok (cacheLoopChain, []) ∧
      (0 : Fin 4) ∈ netLoopChain.inputs 1 ∧
      (1 : Fin 4) ∈ netLoopChain.inputs 2 ∧
      (2 : Fin 4) ∈ netLoopChain.inputs 3 ∧
      (1 : Fin 4) ∈ PostOrderTraversal netLoopChain [3] ∧
      ForwardPropFromTo netLoopChain cacheLoopChain [0] [3] = .ok []) :=
  ⟨⟨by decide, by decide⟩,
   by decide, by decide, by decide, by decide, by decide, by decide, by decide⟩

/-- Claim C5 witness: in the three-node chain with frontier `[0]` and target
`[2]`, the executed subset is characterized by the least fixpoint and is run
in global evaluation order. -/
theorem forwardPropFromTo_least_fixpoint_witness :
    lookupCache cacheChain3 none = some [0, 1, 2] ∧
    (∃ (T s : List (Fin 3)),
      (∀ x, x ∈ T ↔ x ∈ ([0, 1, 2] : List (Fin 3)) ∧
        ∃ t ∈ ([2] : List (Fin 3)), Reaches netChain3 t x) ∧
      (∀ y, y ∈ s ↔ FromToNeeded netChain3 T [0] y) ∧
      ForwardPropFromTo netChain3 cacheChain3 [0] [2]
        = .ok ((([0, 1, 2] : List (Fin 3)).filter (fun x => decide (x ∈ s))).map
            TraversalEntry.node) ∧
      (∀ y ∈ s, ∃ c ∈ netChain3.inputs y, c ∈ ([0] : List (Fin 3)) ∨ c ∈ s)) :=
  ⟨by decide,
   forwardPropFromTo_least_fixpoint netChain3 cacheChain3 [0] [2] [0, 1, 2]
     (by decide) (by decide) (by decide) (by decide) (by decide)⟩
